import Mathlib

/-!
Verification of the Sudoku engine of this repository
(`sudoku_generator.py`, `sudoku_utility.py`, `sudoku_play.py`).

Grids are embedded as flat row-major `List ℤ` of length `n * n`
(`numpy` 2D arrays of Python ints; entries may be any integer, with `0`
denoting an empty cell).  Cell `(i, j)` lives at flat index `i * n + j`.
Reading a cell uses `List.getD _ 0`.

Candidate lists (`available_digits`) are produced in ascending order,
matching CPython's iteration order of `set(range(1, 1+n)) - set(...)`
for small non-negative ints.

The seeded `random.shuffle` calls are modelled by an oracle
`sh : ℕ → List ℤ → List ℤ` (call counter, list to shuffle); a genuine
seed gives an oracle whose every output is a permutation of its input.
-/

/-- `int(n ** (1/2))`: the integer square root, computed structurally
so that it evaluates inside the kernel. -/
def intSqrt : ℕ → ℕ
  | 0 => 0
  | n + 1 =>
    let r := intSqrt n
    if (r + 1) * (r + 1) ≤ n + 1 then r + 1 else r

/-- Read a flat grid cell (Python `sudoku_array[p // n, p % n]`). -/
def cellAt (g : List ℤ) (p : ℕ) : ℤ := g.getD p 0

/-- `numpy` row `p_x` of the grid: `sudoku_array[ix, :]`. -/
def rowVals (n : ℕ) (g : List ℤ) (r : ℕ) : List ℤ :=
  (List.range n).map fun j => cellAt g (r * n + j)

/-- `numpy` column `p_y` of the grid: `sudoku_array[:, iy]`. -/
def colVals (n : ℕ) (g : List ℤ) (c : ℕ) : List ℤ :=
  (List.range n).map fun i => cellAt g (i * n + c)

/-- The `√n × √n` box containing flat cell `p`:
`sudoku_array[ix1*n1:(ix1+1)*n1, iy1*n1:(iy1+1)*n1].flatten()`. -/
def boxVals (n : ℕ) (g : List ℤ) (p : ℕ) : List ℤ :=
  let k := intSqrt n
  let r0 := (p / n / k) * k
  let c0 := (p % n / k) * k
  (List.range k).flatMap fun di =>
    (List.range k).map fun dj => cellAt g ((r0 + di) * n + (c0 + dj))

/-- `exist_lst` of `available_digits`: row ++ column ++ box values
(the queried cell itself included, as in the source). -/
def existVals (n : ℕ) (g : List ℤ) (p : ℕ) : List ℤ :=
  rowVals n g (p / n) ++ colVals n g (p % n) ++ boxVals n g p

/-- `avail_lst` of `available_digits` at one position:
`list(set(range(1, 1+n0)) - set(exist_lst))`, in ascending order. -/
def availAt (n : ℕ) (g : List ℤ) (p : ℕ) : List ℤ :=
  ((List.range n).map fun v : ℕ => (v : ℤ) + 1).filter
    fun v => !((existVals n g p).elem v)

/-- `np.nonzero(sudoku_array == 0)`: flat indices of the empty cells,
in row-major (ascending flat) order. -/
def emptyIdx (n : ℕ) (g : List ℤ) : List ℕ :=
  (List.range (n * n)).filter fun p => cellAt g p == 0

/-- Number of empty cells, `len(sudoku_arr[sudoku_arr == 0])`. -/
def countZeros (g : List ℤ) : ℕ := g.countP fun v => v == 0

/-- Write value `v` at flat cell `p`. -/
def setCell (g : List ℤ) (p : ℕ) (v : ℤ) : List ℤ := g.set p v

/-- The validation performed by `available_digits` on a grid handed to
the solver: the shape is `n × n` with `n` a perfect square, and no
stored value exceeds `n` (`np.max(sudoku_array) > n0` check). -/
def gridAccepted (n : ℕ) (g : List ℤ) : Prop :=
  n = intSqrt n * intSqrt n ∧ g.length = n * n ∧ ∀ v ∈ g, v ≤ (n : ℤ)

instance (n : ℕ) (g : List ℤ) : Decidable (gridAccepted n g) := by
  unfold gridAccepted; infer_instance

/-- One propagation sweep of `solve_sudoku`: with the candidate lists
precomputed on `g`, fill every empty cell whose candidate list has
exactly one member (`sudoku_arr[pos] = avail_lst[idx][0]`). -/
def fillSinglesAll (n : ℕ) (g : List ℤ) (es : List ℕ) : List ℤ :=
  es.foldl
    (fun acc p =>
      if (availAt n g p).length = 1 then setCell acc p ((availAt n g p).headD 0)
      else acc)
    g

/-- Concatenate branch results of `solve_sudoku`'s sub-searches:
`none` (out of fuel) aborts; an inner `none` (Python `None`, dead end)
contributes nothing; an inner list is appended
(`sudoku_solutions = sudoku_solutions + tmp_solved`). -/
def collectBranches : List (Option (Option (List (List ℤ)))) →
    Option (List (List ℤ))
  | [] => some []
  | none :: _ => none
  | some r :: rest =>
    match collectBranches rest with
    | none => none
    | some acc => some (r.getD [] ++ acc)

/-- `solve_sudoku` (fuelled; outer `none` = fuel exhausted, inner
`none` = the Python `return None, solving_record` dead-end result,
inner `some l` = the returned solution list).  The `while` loop of the
source is the tail call in the propagation case; the branch case
recurses over every cell tied for the minimum candidate-list length and
every candidate value, in order. -/
def solveF (n : ℕ) : ℕ → List ℤ → Option (Option (List (List ℤ)))
  | 0, _ => none
  | fuel + 1, g =>
    let es := emptyIdx n g
    if es.isEmpty then some (some [g])
    else
      let m := (es.map fun p => (availAt n g p).length).min?.getD 0
      if m = 0 then some none
      else if m = 1 then solveF n fuel (fillSinglesAll n g es)
      else
        collectBranches
          ((es.filter fun p => (availAt n g p).length = m).flatMap fun p =>
            (availAt n g p).map fun v => solveF n fuel (setCell g p v))
          |>.map some

/-- The list `[1, 2, ..., n]` of Sudoku values. -/
def oneToN (n : ℕ) : List ℤ := (List.range n).map fun j : ℕ => (j : ℤ) + 1

/-- A unit (row, column or box) holds each value in `[1, n]` exactly
once. -/
def isPermOneTo (n : ℕ) (l : List ℤ) : Prop := l.Perm (oneToN n)

/-- A complete, valid Sudoku grid: every row, every column, and the box
of every cell is a permutation of `[1, n]`. -/
def validFull (n : ℕ) (g : List ℤ) : Prop :=
  (∀ r < n, isPermOneTo n (rowVals n g r)) ∧
    (∀ c < n, isPermOneTo n (colVals n g c)) ∧
    ∀ p < n * n, isPermOneTo n (boxVals n g p)

instance (n : ℕ) (l : List ℤ) : Decidable (isPermOneTo n l) := by
  unfold isPermOneTo; infer_instance

instance (n : ℕ) (g : List ℤ) : Decidable (validFull n g) := by
  unfold validFull; infer_instance

/-- No duplicate among the non-zero entries of a unit. -/
def nodupFilled (l : List ℤ) : Prop := (l.filter fun v => !(v == 0)).Nodup

/-- A valid partial grid: no row, column or box contains a duplicate
non-zero value. -/
def validPartial (n : ℕ) (g : List ℤ) : Prop :=
  (∀ r < n, nodupFilled (rowVals n g r)) ∧
    (∀ c < n, nodupFilled (colVals n g c)) ∧
    ∀ p < n * n, nodupFilled (boxVals n g p)

instance (l : List ℤ) : Decidable (nodupFilled l) := by
  unfold nodupFilled; infer_instance

instance (n : ℕ) (g : List ℤ) : Decidable (validPartial n g) := by
  unfold validPartial nodupFilled; infer_instance

/-- A 4×4 grid accepted by `available_digits`' validation whose single
empty cell `(0,0)` has an empty candidate set: row `{2,3,4}` and
column/box `{1}` together occupy all of `[1,4]`. -/
def c1grid : List ℤ := [0, 2, 3, 4, 1, 1, 1, 1, 1, 1, 1, 1, 1, 1, 1, 1]

/-- A 4×4 grid accepted by validation in which the two empty cells
`(0,0)` and `(0,1)` (same row, same box) both have the singleton
candidate set `{1}`. -/
def c2grid : List ℤ := [0, 0, 3, 4, 2, 3, 1, 1, 3, 2, 1, 1, 4, 4, 1, 1]

/-- The grid `solve_sudoku` returns for `c2grid`: both naked singles
were filled with `1` simultaneously, duplicating `1` in row 0. -/
def c2solved : List ℤ := [1, 1, 3, 4, 2, 3, 1, 1, 3, 2, 1, 1, 4, 4, 1, 1]

/-- A hand-built 4×4 puzzle with exactly two valid completions
(`c3solA` and `c3solB`): the four cleared cells form an unavoidable
rectangle on values `1`/`2`. -/
def c3puzzle : List ℤ := [0, 0, 3, 4, 3, 4, 1, 2, 0, 0, 4, 3, 4, 3, 2, 1]

/-- First completion of `c3puzzle`. -/
def c3solA : List ℤ := [1, 2, 3, 4, 3, 4, 1, 2, 2, 1, 4, 3, 4, 3, 2, 1]

/-- Second completion of `c3puzzle` (values `1`/`2` swapped on the
rectangle). -/
def c3solB : List ℤ := [2, 1, 3, 4, 3, 4, 1, 2, 1, 2, 4, 3, 4, 3, 2, 1]

/-- The list `solve_sudoku` returns for `c3puzzle`: all four cells tied
for the minimum candidate-set size are branched on, so each of the two
completions is found four times. -/
def c3sols : List (List ℤ) :=
  [c3solA, c3solB, c3solB, c3solA, c3solB, c3solA, c3solA, c3solB]

/-- C1 counterexample: on `c1grid` — accepted by validation, dead end
at its single empty cell — `solve_sudoku` returns the Python `None`
marker (inner `none`), not an empty solution list. -/
theorem c1_none_counterexample :
    gridAccepted 4 c1grid ∧ solveF 4 20 c1grid = some none ∧
      solveF 4 20 c1grid ≠ some (some []) := by
  refine ⟨by decide, rfl, ?_⟩
  rw [show solveF 4 20 c1grid = some none from rfl]
  simp

/-- C1 amended: a call of `solve_sudoku` that itself reaches a dead end
(some empty cell with an empty candidate set) returns `None`, not an
empty list; empty lists can only arise from the branch step. -/
theorem c1_dead_end_returns_none (n : ℕ) (g : List ℤ) (fuel : ℕ)
    (hne : emptyIdx n g ≠ [])
    (hdead : ((emptyIdx n g).map fun p => (availAt n g p).length).min?.getD 0 = 0) :
    solveF n (fuel + 1) g = some none := by
  rw [solveF]
  simp [List.isEmpty_iff, hne, hdead]

/-- Witness for `c1_dead_end_returns_none` at `c1grid`. -/
theorem c1_dead_end_returns_none_witness :
    (emptyIdx 4 c1grid ≠ [] ∧
      ((emptyIdx 4 c1grid).map fun p => (availAt 4 c1grid p).length).min?.getD 0 = 0) ∧
      solveF 4 (19 + 1) c1grid = some none :=
  ⟨⟨by decide, by decide⟩, c1_dead_end_returns_none 4 c1grid 19 (by decide) (by decide)⟩

/-- C3 counterexample: `c3puzzle` is a valid partial grid, but the
solution list `solve_sudoku` returns for it contains duplicates (eight
entries, not pairwise distinct), refuting both the distinctness claim
and the exactly-two-solutions claim. -/
theorem c3_duplicates_counterexample :
    validPartial 4 c3puzzle ∧ solveF 4 20 c3puzzle = some (some c3sols) ∧
      ¬ c3sols.Nodup := by
  exact ⟨by decide, rfl, by decide⟩

/-- C3 amended: the solver branches on every cell tied for the minimum
candidate-set size, so each completion is reported once per branching
(cell, value) pair that reaches it: for `c3puzzle` (exactly two valid
completions, four tied cells) the returned list has eight grids whose
distinct members are exactly the two completions. -/
theorem c3_two_completions_with_multiplicity :
    solveF 4 20 c3puzzle = some (some c3sols) ∧ c3sols.length = 8 ∧
      c3sols.dedup = [c3solA, c3solB] ∧ c3solA ≠ c3solB ∧
      validFull 4 c3solA ∧ validFull 4 c3solB := by
  exact ⟨rfl, by decide, by decide, by decide, by decide, by decide⟩

/-- The validation of `gen_sudoku_puzzle`: `np.max(sudoku_full) > n0`
or `np.min(sudoku_full) < 1` or some row with `len(set(row)) != n0`
raises `InvalidSolution`; only rows are inspected for duplicates. -/
def puzzleValidationOk (n : ℕ) (g : List ℤ) : Bool :=
  g.all (fun v => decide (v ≤ (n : ℤ))) && g.all (fun v => decide (1 ≤ v)) &&
    (List.range n).all fun r => (rowVals n g r).dedup.length == n

/-- Python `int()` applied to a rational value: truncation toward
zero. -/
def ratTrunc (q : ℚ) : ℤ := if 0 ≤ q then ⌊q⌋ else ⌈q⌉

/-- The removal cap `max([1, int(max_removed_ratio * n0**2)])` of
`gen_sudoku_puzzle` (lines 121-124). -/
def capOf (r : ℚ) (n : ℕ) : ℤ := max 1 (ratTrunc (r * (n : ℚ) ^ 2))

/-- The carving loop of `gen_sudoku_puzzle` (lines 130-141): for each
index in the shuffled order, tentatively clear it in a scratch copy;
if the recomputed candidate set there has exactly one member, accept
the removal and decrement the counter, breaking when it hits zero
(`nmax = -1` means no cap and the counter just keeps falling). -/
def carveLoop (n : ℕ) : List ℕ → List ℤ → ℤ → List ℤ
  | [], g, _ => g
  | p :: rest, g, nmax =>
    let tmp := setCell g p 0
    if (availAt n tmp p).length = 1 then
      if nmax - 1 = 0 then tmp else carveLoop n rest tmp (nmax - 1)
    else carveLoop n rest g nmax

/-- `gen_sudoku_puzzle`: validate, then carve along the shuffled order
(modelled by `order`, a permutation of `range (n*n)` for a genuine
seed), with the cap derived from `max_removed_ratio` when given. -/
def genSudokuPuzzle (n : ℕ) (g : List ℤ) (maxRatio : Option ℚ)
    (order : List ℕ) : Except String (List ℤ) :=
  if puzzleValidationOk n g then
    Except.ok (carveLoop n order g
      (match maxRatio with
       | none => -1
       | some r => capOf r n))
  else Except.error "InvalidSolution"

/-- `max_removed_ratio` computed by `gen_customized_puzzle`:
`np.count_nonzero(puzzle_max == 0) / array_size ** 2` after a
run-to-exhaustion carve. -/
def maxRemovedRatio (n : ℕ) (g : List ℤ) (order : List ℕ) : ℚ :=
  (countZeros (carveLoop n order g (-1)) : ℚ) / (n : ℚ) ^ 2

/-- The removal cap used by the second carving call of
`gen_customized_puzzle` with difficulty `d`. -/
def customizedCap (n : ℕ) (g : List ℤ) (order : List ℕ) (d : ℚ) : ℤ :=
  capOf (d * maxRemovedRatio n g order) n

/-- The `array_size` check of `gen_sudoku_full`:
`array_size == int(array_size ** (1/2)) ** 2`. -/
def sizeOk (n : ℕ) : Bool := n == intSqrt n * intSqrt n

/-- Outcome of a generator run: `crash` models a Python `IndexError`
(rolling back past the first frame, or an empty shuffled list). -/
inductive GenOut
  | crash
  | done (g : List ℤ)
deriving DecidableEq, Repr

/-- The inner rollback loop of `gen_sudoku_full` (lines 86-92): while
the top frame has exactly one remaining candidate, pop it and clear its
cell; then discard the tried head of the stopping frame and place that
frame's next candidate.  `none` models popping past the first frame
(Python would hit `avail_lst[-1]` on an empty list, an `IndexError`). -/
def rollback (g : List ℤ) : List (List ℤ) → Option (List ℤ × List (List ℤ))
  | [] => none
  | f :: rest =>
    if f.length = 1 then rollback (setCell g rest.length 0) rest
    else if 2 ≤ f.length then
      some (setCell g rest.length (f.tail.headD 0), f.tail :: rest)
    else none

/-- The backtracking loop of `gen_sudoku_full` (fuelled; `none` = fuel
exhausted).  The cursor `i` always equals the frame-stack length; cell
`i` is at flat index `i` (row-major `meshgrid` order); `c` counts the
`random.shuffle` calls made so far and feeds the shuffle oracle. -/
def genRun (n : ℕ) (sh : ℕ → List ℤ → List ℤ) :
    ℕ → ℕ → List ℤ → List (List ℤ) → Option GenOut
  | 0, _, _, _ => none
  | fuel + 1, c, g, fs =>
    if n * n ≤ fs.length then some (GenOut.done g)
    else
      let a := availAt n g fs.length
      if a.isEmpty then
        match rollback g fs with
        | none => some GenOut.crash
        | some (g', fs') => genRun n sh fuel c g' fs'
      else
        match sh c a with
        | [] => some GenOut.crash
        | v :: t => genRun n sh fuel (c + 1) (setCell g fs.length v) ((v :: t) :: fs)

/-- `gen_sudoku_full`: reject sizes failing the squared-size check,
then run the backtracking loop from the all-zero grid. -/
def genSudokuFull (n : ℕ) (sh : ℕ → List ℤ → List ℤ) (fuel : ℕ) :
    Except String (Option GenOut) :=
  if sizeOk n then Except.ok (genRun n sh fuel 0 (List.replicate (n * n) 0) [])
  else Except.error "InvalidSize"

/-- The identity shuffle oracle: a permutation for every input, so it
models one admissible seeded shuffle stream. -/
def idOracle : ℕ → List ℤ → List ℤ := fun _ l => l

/-- The full 4×4 grid `gen_sudoku_full` produces under the identity
shuffle oracle (greedy least-candidate filling, no backtracking). -/
def fullGrid4 : List ℤ := [1, 2, 3, 4, 3, 4, 1, 2, 2, 1, 4, 3, 4, 3, 2, 1]

theorem intSqrt_bounds (n : ℕ) :
    intSqrt n * intSqrt n ≤ n ∧ n < (intSqrt n + 1) * (intSqrt n + 1) := by
  induction n with
  | zero => exact ⟨Nat.le_refl 0, Nat.zero_lt_one⟩
  | succ n ih =>
    simp only [intSqrt]
    split
    · next h => exact ⟨h, by nlinarith [ih.2]⟩
    · next h => exact ⟨Nat.le_succ_of_le ih.1, by omega⟩

theorem intSqrt_of_sq (k : ℕ) : intSqrt (k * k) = k := by
  have h := intSqrt_bounds (k * k)
  have h1 : intSqrt (k * k) ≤ k := by nlinarith [h.1]
  have h2 : k ≤ intSqrt (k * k) := by nlinarith [h.2]
  omega

theorem mem_oneToN {n : ℕ} {v : ℤ} : v ∈ oneToN n ↔ 1 ≤ v ∧ v ≤ (n : ℤ) := by
  unfold oneToN
  simp only [List.mem_map, List.mem_range]
  constructor
  · rintro ⟨j, hj, rfl⟩
    omega
  · rintro ⟨h1, h2⟩
    exact ⟨(v - 1).toNat, by omega, by omega⟩

theorem oneToN_length (n : ℕ) : (oneToN n).length = n := by
  simp [oneToN]

theorem oneToN_nodup (n : ℕ) : (oneToN n).Nodup := by
  unfold oneToN
  exact (List.nodup_range n).map (fun a b h => by omega)

theorem rowVals_length (n : ℕ) (g : List ℤ) (r : ℕ) :
    (rowVals n g r).length = n := by
  simp [rowVals]

theorem cellAt_mem {n : ℕ} {g : List ℤ} (hlen : g.length = n * n) {p : ℕ}
    (hp : p < n * n) : cellAt g p ∈ g := by
  unfold cellAt
  rw [List.getD_eq_getElem?_getD, List.getElem?_eq_getElem (by omega)]
  exact List.getElem_mem _

theorem mem_rowVals {n : ℕ} {g : List ℤ} {r : ℕ} {v : ℤ} :
    v ∈ rowVals n g r ↔ ∃ j < n, cellAt g (r * n + j) = v := by
  simp [rowVals, eq_comm]

/-- C6 counterexample grid: every row is the permutation `[1,2,3,4]`,
yet every column is constant. -/
def c6grid : List ℤ := [1, 2, 3, 4, 1, 2, 3, 4, 1, 2, 3, 4, 1, 2, 3, 4]

/-- C6 counterexample: `c6grid` passes `gen_sudoku_puzzle`'s validation
(no `InvalidSolution` error) although it is not a complete,
constraint-satisfying grid — every column holds a duplicate. -/
theorem c6_rows_only_counterexample :
    puzzleValidationOk 4 c6grid = true ∧ ¬ validFull 4 c6grid ∧
      ¬ nodupFilled (colVals 4 c6grid 0) := by
  exact ⟨rfl, by decide, by decide⟩

/-- The validation of `gen_sudoku_puzzle` accepts a square grid iff
every row is a permutation of `[1, n]`. -/
theorem puzzleValidationOk_iff_rows (n : ℕ) (g : List ℤ)
    (hlen : g.length = n * n) :
    puzzleValidationOk n g = true ↔ ∀ r < n, isPermOneTo n (rowVals n g r) := by
  unfold puzzleValidationOk isPermOneTo
  simp only [Bool.and_eq_true, List.all_eq_true, List.mem_range,
    decide_eq_true_eq, beq_iff_eq]
  constructor
  · rintro ⟨⟨hmax, hmin⟩, hded⟩ r hr
    have hlenr : (rowVals n g r).length = n := rowVals_length n g r
    have hnd : (rowVals n g r).Nodup := by
      have heq : (rowVals n g r).dedup = rowVals n g r :=
        List.Sublist.eq_of_length (List.dedup_sublist _) (by rw [hded r hr, hlenr])
      rw [← heq]
      exact List.nodup_dedup _
    have hss : rowVals n g r ⊆ oneToN n := by
      intro v hv
      rcases mem_rowVals.mp hv with ⟨j, hj, hcell⟩
      have hpm : r * n + j < n * n := by nlinarith
      have hmem : v ∈ g := hcell ▸ cellAt_mem hlen hpm
      exact mem_oneToN.mpr ⟨hmin v hmem, hmax v hmem⟩
    exact (hnd.subperm hss).perm_of_length_le (by rw [hlenr, oneToN_length])
  · intro hperm
    have hval : ∀ v ∈ g, 1 ≤ v ∧ v ≤ (n : ℤ) := by
      intro v hv
      rcases List.mem_iff_getElem.mp hv with ⟨p, hp, hcell⟩
      have hp' : p < n * n := by omega
      have hn : 0 < n := by
        rcases Nat.eq_zero_or_pos n with h | h
        · subst h; simp at hp'
        · exact h
      have hrj : p / n * n + p % n = p := by
        rw [Nat.mul_comm]; exact Nat.div_add_mod p n
      have hrlt : p / n < n := Nat.div_lt_of_lt_mul hp'
      have hvrow : v ∈ rowVals n g (p / n) := by
        refine mem_rowVals.mpr ⟨p % n, Nat.mod_lt _ hn, ?_⟩
        rw [hrj]
        unfold cellAt
        rw [List.getD_eq_getElem?_getD, List.getElem?_eq_getElem hp, hcell]
        rfl
      exact mem_oneToN.mp (((hperm _ hrlt).mem_iff).mp hvrow)
    refine ⟨⟨fun v hv => (hval v hv).2, fun v hv => (hval v hv).1⟩, ?_⟩
    intro r hr
    have hnd : (rowVals n g r).Nodup :=
      ((hperm r hr).nodup_iff).mpr (oneToN_nodup n)
    rw [List.dedup_eq_self.mpr hnd, rowVals_length]

/-- C6 amended: `gen_sudoku_puzzle` raises `InvalidSolution` exactly
when some entry lies outside `[1, n]` or some row has a repeated value
— that is, it accepts a square grid iff every row is a permutation of
`[1, n]`; duplicates confined to columns or boxes are not detected. -/
theorem c6_validation_iff_rows_perm (n : ℕ) (g : List ℤ)
    (hlen : g.length = n * n) :
    puzzleValidationOk n g = true ↔ ∀ r < n, isPermOneTo n (rowVals n g r) :=
  puzzleValidationOk_iff_rows n g hlen

/-- Witness instantiating `c6_validation_iff_rows_perm` at `c6grid`. -/
theorem c6_validation_iff_rows_perm_witness :
    c6grid.length = 4 * 4 ∧
      (puzzleValidationOk 4 c6grid = true ↔
        ∀ r < 4, isPermOneTo 4 (rowVals 4 c6grid r)) :=
  ⟨by decide, c6_validation_iff_rows_perm 4 c6grid (by decide)⟩

/-- C8 counterexample: `array_size = 0` passes the squared-size check
of `gen_sudoku_full` (`0 == int(0**0.5)**2`), and the call returns the
empty 0×0 grid instead of raising `InvalidSize`. -/
theorem c8_zero_size_accepted :
    sizeOk 0 = true ∧
      genSudokuFull 0 idOracle 1 = Except.ok (some (GenOut.done [])) :=
  ⟨rfl, rfl⟩

/-- C8 amended: for a non-negative integer `n`, `gen_sudoku_full`'s
size check accepts exactly the perfect squares — `0 = 0²` included, so
`N = 0` is accepted (yielding an empty grid) rather than rejected. -/
theorem c8_sizeok_iff_square (n : ℕ) : sizeOk n = true ↔ ∃ k, n = k * k := by
  unfold sizeOk
  rw [beq_iff_eq]
  constructor
  · intro h
    exact ⟨intSqrt n, h⟩
  · rintro ⟨k, rfl⟩
    rw [intSqrt_of_sq]

/-- C7 counterexample: with `N = 4`, the identity-shuffle seed and
`difficulty = 11/64`, the pipeline of `gen_customized_puzzle` has
`maxRemovedRatio = 9/16`, so `targetRatio · N² = 99/64 ≈ 1.547`; the
code's cap `max(1, int(99/64))` is `1`, while the claimed
`max(1, round(99/64))` is `2`. -/
theorem c7_truncation_counterexample :
    genRun 4 idOracle 40 0 (List.replicate 16 0) [] =
        some (GenOut.done fullGrid4) ∧
      maxRemovedRatio 4 fullGrid4 (List.range 16) = 9 / 16 ∧
      customizedCap 4 fullGrid4 (List.range 16) (11 / 64) = 1 ∧
      max 1 (round ((11 / 64 : ℚ) * maxRemovedRatio 4 fullGrid4 (List.range 16)
        * (4 : ℚ) ^ 2)) = 2 := by
  have he : countZeros (carveLoop 4 (List.range 16) fullGrid4 (-1)) = 9 := rfl
  have hr : maxRemovedRatio 4 fullGrid4 (List.range 16) = 9 / 16 := by
    unfold maxRemovedRatio
    rw [he]
    norm_num
  have hX : (11 / 64 : ℚ) * (9 / 16) * ((4 : ℕ) : ℚ) ^ 2 = 99 / 64 := by
    push_cast
    norm_num
  refine ⟨rfl, hr, ?_, ?_⟩
  · unfold customizedCap capOf ratTrunc
    rw [hr, hX, if_pos (by norm_num : (0 : ℚ) ≤ 99 / 64),
      show ⌊(99 / 64 : ℚ)⌋ = 1 from by rw [Int.floor_eq_iff] <;> norm_num]
    norm_num
  · rw [hr, round_eq,
      show (11 / 64 : ℚ) * (9 / 16) * (4 : ℚ) ^ 2 = 99 / 64 from by norm_num,
      show (99 / 64 : ℚ) + 1 / 2 = 131 / 64 from by norm_num,
      show ⌊(131 / 64 : ℚ)⌋ = 2 from by rw [Int.floor_eq_iff] <;> norm_num]
    norm_num

/-- C7 amended: the second carving call of `gen_customized_puzzle` uses
the removal cap `max(1, int(targetRatio · N²))`, where `int()`
truncates toward zero — equivalently `max(1, trunc(difficulty ·
emptyCount))` with `emptyCount` the empty-cell count of the
run-to-exhaustion carve — not a round-to-nearest. -/
theorem c7_cap_is_truncation (n : ℕ) (g : List ℤ) (order : List ℕ) (d : ℚ)
    (hn : 0 < n) :
    customizedCap n g order d =
      max 1 (ratTrunc (d * (countZeros (carveLoop n order g (-1)) : ℚ))) := by
  unfold customizedCap capOf maxRemovedRatio
  have h0 : ((n : ℚ)) ≠ 0 := Nat.cast_ne_zero.mpr (Nat.pos_iff_ne_zero.mp hn)
  congr 2
  field_simp

/-- Witness instantiating `c7_cap_is_truncation` on the concrete
pipeline state of the counterexample. -/
theorem c7_cap_is_truncation_witness :
    0 < 4 ∧ customizedCap 4 fullGrid4 (List.range 16) (11 / 64) =
      max 1 (ratTrunc ((11 / 64 : ℚ)
        * (countZeros (carveLoop 4 (List.range 16) fullGrid4 (-1)) : ℚ))) :=
  ⟨by decide, c7_cap_is_truncation 4 fullGrid4 (List.range 16) (11 / 64) (by decide)⟩

theorem length_setCell (g : List ℤ) (p : ℕ) (v : ℤ) :
    (setCell g p v).length = g.length :=
  List.length_set g p v

theorem cellAt_setCell (g : List ℤ) (p q : ℕ) (v : ℤ) :
    cellAt (setCell g p v) q =
      if p = q ∧ p < g.length then v else cellAt g q := by
  unfold cellAt setCell
  rw [List.getD_eq_getElem?_getD, List.getD_eq_getElem?_getD, List.getElem?_set]
  by_cases h : p = q
  · subst h
    by_cases hl : p < g.length
    · simp [hl]
    · simp [hl, List.getElem?_eq_none (Nat.le_of_not_lt hl)]
  · simp [h]

theorem cellAt_setCell_ne (g : List ℤ) {p q : ℕ} (h : p ≠ q) (v : ℤ) :
    cellAt (setCell g p v) q = cellAt g q := by
  rw [cellAt_setCell]
  simp [h]

theorem cellAt_setCell_self (g : List ℤ) {p : ℕ} (h : p < g.length) (v : ℤ) :
    cellAt (setCell g p v) p = v := by
  rw [cellAt_setCell]
  simp [h]

theorem mem_emptyIdx {n : ℕ} {g : List ℤ} {p : ℕ} :
    p ∈ emptyIdx n g ↔ p < n * n ∧ cellAt g p = 0 := by
  unfold emptyIdx
  simp [List.mem_filter]

theorem elem_eq_false_of_not_mem {a : ℤ} {l : List ℤ} (h : a ∉ l) :
    l.elem a = false := by
  rcases Bool.eq_false_or_eq_true (l.elem a) with hb | hb
  · exact absurd (List.elem_iff.mp hb) h
  · exact hb

theorem mem_availAt {n : ℕ} {g : List ℤ} {p : ℕ} {v : ℤ} :
    v ∈ availAt n g p ↔
      (1 ≤ v ∧ v ≤ (n : ℤ)) ∧ v ∉ existVals n g p := by
  unfold availAt
  rw [List.mem_filter]
  constructor
  · rintro ⟨hv, hf⟩
    rcases List.mem_map.mp hv with ⟨j, hj, rfl⟩
    rw [List.mem_range] at hj
    refine ⟨⟨by omega, by omega⟩, ?_⟩
    intro hmem
    rw [List.elem_iff.mpr hmem] at hf
    simp at hf
  · rintro ⟨⟨h1, h2⟩, hnm⟩
    refine ⟨List.mem_map.mpr ⟨(v - 1).toNat, List.mem_range.mpr (by omega), by omega⟩, ?_⟩
    rw [elem_eq_false_of_not_mem hnm]
    rfl

/-- `available_digits(sudoku_array)` without an explicit position: the
squared-size check, the `ValueOverflow` check, then the candidate lists
and flat coordinates of all empty positions. -/
def availableDigits (n : ℕ) (g : List ℤ) :
    Except String (List (List ℤ) × List ℕ) :=
  if n = intSqrt n * intSqrt n then
    if g.all fun v => decide (v ≤ (n : ℤ)) then
      Except.ok ((emptyIdx n g).map (availAt n g), emptyIdx n g)
    else Except.error "ValueOverflow"
  else Except.error "NotSquareGrid"

/-- C10: the `ValueOverflow` validation is one-sided.  For every square
`n × n` grid (with `n` a perfect square) whose maximum entry is at most
`n` — negative entries allowed — `available_digits` raises no error;
the empty-cell enumeration selects exactly the cells equal to `0`
(negative cells count as filled); and a negative entry never shrinks
any candidate set: zeroing it out leaves every candidate list
unchanged. -/
theorem c10_value_overflow_one_sided (n : ℕ) (g : List ℤ)
    (hsq : n = intSqrt n * intSqrt n) (hlen : g.length = n * n)
    (hmax : ∀ v ∈ g, v ≤ (n : ℤ)) :
    availableDigits n g =
        Except.ok ((emptyIdx n g).map (availAt n g), emptyIdx n g) ∧
      (∀ p, p ∈ emptyIdx n g ↔ p < n * n ∧ cellAt g p = 0) ∧
      ∀ p q, cellAt g q < 0 → availAt n g p = availAt n (setCell g q 0) p := by
  refine ⟨?_, fun p => mem_emptyIdx, ?_⟩
  · unfold availableDigits
    rw [if_pos hsq, if_pos]
    rw [List.all_eq_true]
    intro v hv
    exact decide_eq_true (hmax v hv)
  · intro p q hq
    unfold availAt
    refine List.filter_congr ?_
    intro v hv
    rcases List.mem_map.mp hv with ⟨j, hj, rfl⟩
    have hiff : ∀ idx, cellAt g idx = (j : ℤ) + 1 ↔
        cellAt (setCell g q 0) idx = (j : ℤ) + 1 := by
      intro idx
      rw [cellAt_setCell]
      by_cases h : q = idx ∧ q < g.length
      · rw [if_pos h]
        constructor
        · intro hc
          rw [h.1] at hq
          omega
        · intro hc
          omega
      · rw [if_neg h]
    have : ((j : ℤ) + 1) ∈ existVals n g p ↔
        ((j : ℤ) + 1) ∈ existVals n (setCell g q 0) p := by
      unfold existVals rowVals colVals boxVals
      simp only [List.mem_append, List.mem_map, List.mem_flatMap,
        List.mem_range, hiff]
    have hb : (existVals n g p).elem ((j : ℤ) + 1) =
        (existVals n (setCell g q 0) p).elem ((j : ℤ) + 1) := by
      by_cases hm : ((j : ℤ) + 1) ∈ existVals n g p
      · rw [List.elem_iff.mpr hm, List.elem_iff.mpr (this.mp hm)]
      · have hm' : ((j : ℤ) + 1) ∉ existVals n (setCell g q 0) p :=
          fun h => hm (this.mpr h)
        rw [elem_eq_false_of_not_mem hm, elem_eq_false_of_not_mem hm']
    rw [hb]

/-- A 4×4 grid with negative entries (and zeros) whose maximum entry is
at most 4: validation accepts it. -/
def c10grid : List ℤ :=
  [-3, 2, 0, 4, 0, 1, -1, 2, 4, -2, 3, 0, 1, 0, 2, -4]

/-- Witness instantiating `c10_value_overflow_one_sided` at `c10grid`. -/
theorem c10_value_overflow_one_sided_witness :
    (4 = intSqrt 4 * intSqrt 4 ∧ c10grid.length = 4 * 4 ∧
        ∀ v ∈ c10grid, v ≤ (4 : ℤ)) ∧
      (availableDigits 4 c10grid =
          Except.ok ((emptyIdx 4 c10grid).map (availAt 4 c10grid),
            emptyIdx 4 c10grid) ∧
        (∀ p, p ∈ emptyIdx 4 c10grid ↔ p < 4 * 4 ∧ cellAt c10grid p = 0) ∧
        ∀ p q, cellAt c10grid q < 0 →
          availAt 4 c10grid p = availAt 4 (setCell c10grid q 0) p) :=
  ⟨⟨by decide, by decide, by decide⟩,
    c10_value_overflow_one_sided 4 c10grid (by decide) (by decide) (by decide)⟩

theorem headD_mem {l : List ℤ} (h : l ≠ []) (d : ℤ) : l.headD d ∈ l := by
  cases l with
  | nil => exact absurd rfl h
  | cons x t => exact List.mem_cons_self x t

theorem availAt_pos {n : ℕ} {g : List ℤ} {p : ℕ} {v : ℤ}
    (h : v ∈ availAt n g p) : 1 ≤ v :=
  (mem_availAt.mp h).1.1

theorem length_fillSinglesAll (n : ℕ) (g : List ℤ) (es : List ℕ) :
    (fillSinglesAll n g es).length = g.length := by
  unfold fillSinglesAll
  suffices h : ∀ (l : List ℕ) (acc : List ℤ),
      (l.foldl (fun acc p => if (availAt n g p).length = 1
        then setCell acc p ((availAt n g p).headD 0) else acc) acc).length
      = acc.length from h es g
  intro l
  induction l with
  | nil => intro acc; rfl
  | cons p rest ih =>
    intro acc
    rw [List.foldl_cons]
    by_cases h : (availAt n g p).length = 1
    · rw [if_pos h, ih, length_setCell]
    · rw [if_neg h, ih]

theorem fillSinglesAll_agree {n : ℕ} {g : List ℤ} {es : List ℕ}
    (hes : ∀ q ∈ es, cellAt g q = 0) :
    ∀ p, cellAt g p ≠ 0 → cellAt (fillSinglesAll n g es) p = cellAt g p := by
  unfold fillSinglesAll
  suffices h : ∀ (l : List ℕ), (∀ q ∈ l, cellAt g q = 0) →
      ∀ (acc : List ℤ), (∀ p, cellAt g p ≠ 0 → cellAt acc p = cellAt g p) →
      ∀ p, cellAt g p ≠ 0 →
        cellAt (l.foldl (fun acc p => if (availAt n g p).length = 1
          then setCell acc p ((availAt n g p).headD 0) else acc) acc) p
          = cellAt g p from
    fun p hp => h es hes g (fun _ _ => rfl) p hp
  intro l
  induction l with
  | nil => intro _ acc hacc p hp; exact hacc p hp
  | cons q rest ih =>
    intro hql acc hacc p hp
    rw [List.foldl_cons]
    refine ih (fun q' hq' => hql q' (List.mem_cons_of_mem q hq')) _ ?_ p hp
    intro p' hp'
    by_cases h : (availAt n g q).length = 1
    · rw [if_pos h]
      have hqp : q ≠ p' := by
        intro he
        rw [he] at hql
        exact hp' (hql p' (List.mem_cons_self p' rest))
      rw [cellAt_setCell_ne _ hqp]
      exact hacc p' hp'
    · rw [if_neg h]
      exact hacc p' hp'

theorem collectBranches_mem :
    ∀ (L : List (Option (Option (List (List ℤ))))) (acc : List (List ℤ)),
      collectBranches L = some acc → ∀ s ∈ acc,
        ∃ o ∈ L, ∃ r, o = some (some r) ∧ s ∈ r := by
  intro L
  induction L with
  | nil =>
    intro acc h s hs
    rw [collectBranches] at h
    injection h with h'
    rw [← h'] at hs
    cases hs
  | cons o rest ih =>
    intro acc h s hs
    cases o with
    | none => rw [collectBranches] at h; cases h
    | some r =>
      rw [collectBranches] at h
      cases hcb : collectBranches rest with
      | none => rw [hcb] at h; cases h
      | some acc' =>
        rw [hcb] at h
        injection h with h'
        rw [← h'] at hs
        rcases List.mem_append.mp hs with hl | hr
        · cases r with
          | none => cases hl
          | some r' =>
            exact ⟨some (some r'), List.mem_cons_self _ _, r', rfl, hl⟩
        · obtain ⟨o', ho', r', hor', hsr'⟩ := ih acc' hcb s hr
          exact ⟨o', List.mem_cons_of_mem _ ho', r', hor', hsr'⟩

theorem solveF_sound (n : ℕ) :
    ∀ (fuel : ℕ) (g : List ℤ) (sols : List (List ℤ)) (s : List ℤ),
      solveF n fuel g = some (some sols) → s ∈ sols →
      s.length = g.length ∧
        (∀ p, cellAt g p ≠ 0 → cellAt s p = cellAt g p) ∧
        ∀ p, p < n * n → cellAt s p ≠ 0 := by
  intro fuel
  induction fuel with
  | zero =>
    intro g sols s h
    rw [solveF] at h
    cases h
  | succ fuel ih =>
    intro g sols s hrun hs
    rw [solveF] at hrun
    dsimp only at hrun
    by_cases he : (emptyIdx n g).isEmpty
    · rw [if_pos he] at hrun
      injection hrun with h'
      injection h' with h''
      rw [← h''] at hs
      rcases List.mem_singleton.mp hs with rfl
      refine ⟨rfl, fun p _ => rfl, ?_⟩
      intro p hp hzero
      have hmem : p ∈ emptyIdx n s := mem_emptyIdx.mpr ⟨hp, hzero⟩
      rw [List.isEmpty_iff.mp he] at hmem
      cases hmem
    · rw [if_neg he] at hrun
      by_cases h0 :
          ((emptyIdx n g).map fun p => (availAt n g p).length).min?.getD 0 = 0
      · rw [if_pos h0] at hrun
        simp at hrun
      · rw [if_neg h0] at hrun
        by_cases h1 :
            ((emptyIdx n g).map fun p => (availAt n g p).length).min?.getD 0 = 1
        · rw [if_pos h1] at hrun
          obtain ⟨hlen', hagree', hcomp'⟩ := ih _ _ _ hrun hs
          have hes : ∀ q ∈ emptyIdx n g, cellAt g q = 0 := fun q hq =>
            (mem_emptyIdx.mp hq).2
          refine ⟨by rw [hlen', length_fillSinglesAll], ?_, hcomp'⟩
          intro p hp
          have hfp : cellAt (fillSinglesAll n g (emptyIdx n g)) p = cellAt g p :=
            fillSinglesAll_agree hes p hp
          exact (hagree' p (by rw [hfp]; exact hp)).trans hfp
        · rw [if_neg h1] at hrun
          have hcb : collectBranches
              (((emptyIdx n g).filter fun p => (availAt n g p).length =
                  ((emptyIdx n g).map fun p =>
                    (availAt n g p).length).min?.getD 0).flatMap fun p =>
                (availAt n g p).map fun v => solveF n fuel (setCell g p v))
              = some sols := by
            cases hL : collectBranches
              (((emptyIdx n g).filter fun p => (availAt n g p).length =
                  ((emptyIdx n g).map fun p =>
                    (availAt n g p).length).min?.getD 0).flatMap fun p =>
                (availAt n g p).map fun v => solveF n fuel (setCell g p v)) with
            | none => rw [hL] at hrun; cases hrun
            | some acc =>
              rw [hL] at hrun
              simpa using hrun
          obtain ⟨o, ho, r, hor, hsr⟩ := collectBranches_mem _ _ hcb s hs
          rw [List.mem_flatMap] at ho
          obtain ⟨p, hpf, hoo⟩ := ho
          rw [List.mem_map] at hoo
          obtain ⟨v, hv, rfl⟩ := hoo
          have hp := List.mem_filter.mp hpf
          obtain ⟨hplt, hpzero⟩ := mem_emptyIdx.mp hp.1
          have hvpos : 1 ≤ v := availAt_pos hv
          obtain ⟨hlen', hagree', hcomp'⟩ := ih _ _ _ hor hsr
          refine ⟨by rw [hlen', length_setCell], ?_, hcomp'⟩
          intro q hq
          have hqp : p ≠ q := by
            intro he'
            rw [← he'] at hq
            exact hq hpzero
          have hcq : cellAt (setCell g p v) q = cellAt g q :=
            cellAt_setCell_ne g hqp v
          exact (hagree' q (by rw [hcq]; exact hq)).trans hcq

/-- C2 counterexample: `c2grid` is accepted by validation, yet the
solver's propagation step fills its two naked singles (same row, same
single candidate `1`) simultaneously and returns `c2solved` — a
complete grid that is not valid (row 0 holds `1` twice).  Solver
soundness as claimed therefore fails. -/
theorem c2_soundness_counterexample :
    gridAccepted 4 c2grid ∧ solveF 4 20 c2grid = some (some [c2solved]) ∧
      ¬ validFull 4 c2solved ∧ ¬ nodupFilled (rowVals 4 c2solved 0) :=
  ⟨by decide, rfl, by decide, by decide⟩

/-- C2 amended: for every accepted input grid, every grid in the
returned solution list is complete (no empty cell) and agrees with
every non-zero cell of the input; it need not satisfy the row/column/
box constraints when the input admits no valid completion, because the
propagation step can place the same forced value in two cells of one
unit. -/
theorem c2_solutions_complete_and_extend (n : ℕ) (g : List ℤ) (fuel : ℕ)
    (sols : List (List ℤ)) (s : List ℤ) (hacc : gridAccepted n g)
    (hrun : solveF n fuel g = some (some sols)) (hs : s ∈ sols) :
    s.length = n * n ∧ (∀ p, cellAt g p ≠ 0 → cellAt s p = cellAt g p) ∧
      ∀ p, p < n * n → cellAt s p ≠ 0 := by
  obtain ⟨h1, h2, h3⟩ := solveF_sound n fuel g sols s hrun hs
  exact ⟨by rw [h1, hacc.2.1], h2, h3⟩

/-- Witness instantiating `c2_solutions_complete_and_extend` on
`c2grid` and its returned solution. -/
theorem c2_solutions_complete_and_extend_witness :
    (gridAccepted 4 c2grid ∧ solveF 4 20 c2grid = some (some [c2solved]) ∧
        c2solved ∈ [c2solved]) ∧
      (c2solved.length = 4 * 4 ∧
        (∀ p, cellAt c2grid p ≠ 0 → cellAt c2solved p = cellAt c2grid p) ∧
        ∀ p, p < 4 * 4 → cellAt c2solved p ≠ 0) :=
  ⟨⟨by decide, rfl, by decide⟩,
    c2_solutions_complete_and_extend 4 c2grid 20 [c2solved] c2solved
      (by decide) rfl (by decide)⟩

/-- Flat indices of row `r`. -/
def rowIdx (n r : ℕ) : List ℕ := (List.range n).map fun j => r * n + j

/-- Flat indices of column `c`. -/
def colIdx (n c : ℕ) : List ℕ := (List.range n).map fun i => i * n + c

/-- Flat indices of the box containing cell `p`. -/
def boxIdx (n p : ℕ) : List ℕ :=
  let k := intSqrt n
  let r0 := (p / n / k) * k
  let c0 := (p % n / k) * k
  (List.range k).flatMap fun di =>
    (List.range k).map fun dj => (r0 + di) * n + (c0 + dj)

theorem rowVals_eq_map (n : ℕ) (g : List ℤ) (r : ℕ) :
    rowVals n g r = (rowIdx n r).map (cellAt g) := by
  unfold rowVals rowIdx
  rw [List.map_map]
  rfl

theorem colVals_eq_map (n : ℕ) (g : List ℤ) (c : ℕ) :
    colVals n g c = (colIdx n c).map (cellAt g) := by
  unfold colVals colIdx
  rw [List.map_map]
  rfl

theorem boxVals_eq_map (n : ℕ) (g : List ℤ) (p : ℕ) :
    boxVals n g p = (boxIdx n p).map (cellAt g) := by
  unfold boxVals boxIdx
  rw [List.map_flatMap]
  simp only [List.map_map]
  rfl

theorem existVals_decomp (n : ℕ) (g : List ℤ) (q : ℕ) :
    existVals n g q = (rowIdx n (q / n)).map (cellAt g) ++
      (colIdx n (q % n)).map (cellAt g) ++ (boxIdx n q).map (cellAt g) := by
  unfold existVals
  rw [rowVals_eq_map, colVals_eq_map, boxVals_eq_map]

theorem mem_rowIdx_self {n q : ℕ} (hn : 0 < n) : q ∈ rowIdx n (q / n) := by
  unfold rowIdx
  refine List.mem_map.mpr ⟨q % n, List.mem_range.mpr (Nat.mod_lt _ hn), ?_⟩
  rw [Nat.mul_comm]
  exact Nat.div_add_mod q n

theorem mem_colIdx_self {n q : ℕ} (hn : 0 < n) (hq : q < n * n) :
    q ∈ colIdx n (q % n) := by
  unfold colIdx
  refine List.mem_map.mpr ⟨q / n, List.mem_range.mpr (Nat.div_lt_of_lt_mul hq), ?_⟩
  rw [Nat.mul_comm]
  exact Nat.div_add_mod q n

theorem mem_boxIdx_self {n q : ℕ} (hsq : intSqrt n * intSqrt n = n)
    (hn : 0 < n) : q ∈ boxIdx n q := by
  unfold boxIdx
  have hk : 0 < intSqrt n := by
    rcases Nat.eq_zero_or_pos (intSqrt n) with h | h
    · rw [h] at hsq; omega
    · exact h
  refine List.mem_flatMap.mpr ⟨q / n % intSqrt n,
    List.mem_range.mpr (Nat.mod_lt _ hk), ?_⟩
  refine List.mem_map.mpr ⟨q % n % intSqrt n,
    List.mem_range.mpr (Nat.mod_lt _ hk), ?_⟩
  have h1 : q / n / intSqrt n * intSqrt n + q / n % intSqrt n = q / n := by
    rw [Nat.mul_comm]
    exact Nat.div_add_mod (q / n) (intSqrt n)
  have h2 : q % n / intSqrt n * intSqrt n + q % n % intSqrt n = q % n := by
    rw [Nat.mul_comm]
    exact Nat.div_add_mod (q % n) (intSqrt n)
  rw [h1, h2, Nat.mul_comm]
  exact Nat.div_add_mod q n

/-- Clearing the cell `q` of a duplicate-free unit removes exactly the
value `cellAt G q` from the unit's value multiset. -/
theorem clear_unit_mem {G : List ℤ} {I : List ℕ} {q : ℕ} {v : ℤ}
    (hnd : (I.map (cellAt G)).Nodup) (hqI : q ∈ I) (hql : q < G.length)
    (hv : v ≠ 0) :
    v ∈ I.map (cellAt (setCell G q 0)) ↔
      v ∈ I.map (cellAt G) ∧ v ≠ cellAt G q := by
  constructor
  · intro hmem
    rcases List.mem_map.mp hmem with ⟨p', hp', hval'⟩
    by_cases hpq : p' = q
    · subst hpq
      rw [cellAt_setCell_self G hql 0] at hval'
      exact absurd hval'.symm hv
    · have hGv : cellAt G p' = v := by
        rw [← cellAt_setCell_ne G (fun h => hpq h.symm) 0]
        exact hval'
      refine ⟨List.mem_map.mpr ⟨p', hp', hGv⟩, ?_⟩
      intro hvw
      exact hpq (List.inj_on_of_nodup_map hnd hp' hqI (by rw [hGv, hvw]))
  · rintro ⟨hmem, hvw⟩
    rcases List.mem_map.mp hmem with ⟨p', hp', hval'⟩
    have hpq : p' ≠ q := fun h => hvw (by rw [← hval', h])
    exact List.mem_map.mpr
      ⟨p', hp', by rw [cellAt_setCell_ne G (fun h => hpq h.symm) 0, hval']⟩

theorem availAt_eq_filter (n : ℕ) (g : List ℤ) (p : ℕ) :
    availAt n g p = (oneToN n).filter fun v => !((existVals n g p).elem v) :=
  rfl

theorem eq_singleton_of_mem_unique {l : List ℤ} {a : ℤ} (hnd : l.Nodup)
    (ha : a ∈ l) (huniq : ∀ b ∈ l, b = a) : l = [a] := by
  cases l with
  | nil => cases ha
  | cons x t =>
    have hxa : x = a := huniq x (List.mem_cons_self x t)
    subst hxa
    cases t with
    | nil => rfl
    | cons y t' =>
      have hyx : y = x := huniq y (List.mem_cons_of_mem x (List.mem_cons_self y t'))
      exact absurd (hyx ▸ List.mem_cons_self y t') (List.nodup_cons.mp hnd).1

/-- On a complete valid grid, clearing any cell and recomputing its
candidate set from the cleared grid yields exactly the removed value:
the local inference check of the carver always succeeds on the first
removal. -/
theorem availAt_clear_singleton (n : ℕ) (G : List ℤ) (q : ℕ)
    (hn : 0 < n) (hsq : intSqrt n * intSqrt n = n)
    (hlen : G.length = n * n) (hval : validFull n G) (hq : q < n * n) :
    availAt n (setCell G q 0) q = [cellAt G q] := by
  have hql : q < G.length := by omega
  have hrlt : q / n < n := Nat.div_lt_of_lt_mul hq
  have hclt : q % n < n := Nat.mod_lt _ hn
  have hrowperm := hval.1 (q / n) hrlt
  have hcolperm := hval.2.1 (q % n) hclt
  have hboxperm := hval.2.2 q hq
  have hwrow : cellAt G q ∈ rowVals n G (q / n) := by
    rw [rowVals_eq_map]
    exact List.mem_map.mpr ⟨q, mem_rowIdx_self hn, rfl⟩
  have hwb : 1 ≤ cellAt G q ∧ cellAt G q ≤ (n : ℤ) :=
    mem_oneToN.mp (hrowperm.mem_iff.mp hwrow)
  have hndrow : ((rowIdx n (q / n)).map (cellAt G)).Nodup := by
    rw [← rowVals_eq_map]
    exact hrowperm.nodup_iff.mpr (oneToN_nodup n)
  have hndcol : ((colIdx n (q % n)).map (cellAt G)).Nodup := by
    rw [← colVals_eq_map]
    exact hcolperm.nodup_iff.mpr (oneToN_nodup n)
  have hndbox : ((boxIdx n q).map (cellAt G)).Nodup := by
    rw [← boxVals_eq_map]
    exact hboxperm.nodup_iff.mpr (oneToN_nodup n)
  have hmem : ∀ v : ℤ, 1 ≤ v → v ≤ (n : ℤ) →
      (v ∈ existVals n (setCell G q 0) q ↔ v ≠ cellAt G q) := by
    intro v h1 h2
    have hv0 : v ≠ 0 := by omega
    rw [existVals_decomp]
    constructor
    · intro hv
      rcases List.mem_append.mp hv with hv2 | hv2
      · rcases List.mem_append.mp hv2 with hv3 | hv3
        · exact ((clear_unit_mem hndrow (mem_rowIdx_self hn) hql hv0).mp hv3).2
        · exact ((clear_unit_mem hndcol (mem_colIdx_self hn hq) hql hv0).mp hv3).2
      · exact ((clear_unit_mem hndbox (mem_boxIdx_self hsq hn) hql hv0).mp hv2).2
    · intro hvw
      have hvrow : v ∈ (rowIdx n (q / n)).map (cellAt G) := by
        rw [← rowVals_eq_map]
        exact hrowperm.mem_iff.mpr (mem_oneToN.mpr ⟨h1, h2⟩)
      exact List.mem_append.mpr (Or.inl (List.mem_append.mpr (Or.inl
        ((clear_unit_mem hndrow (mem_rowIdx_self hn) hql hv0).mpr
          ⟨hvrow, hvw⟩))))
  have hnda : (availAt n (setCell G q 0) q).Nodup := by
    rw [availAt_eq_filter]
    exact (oneToN_nodup n).filter _
  have hchar : ∀ b ∈ availAt n (setCell G q 0) q, b = cellAt G q := by
    intro b hb
    rcases mem_availAt.mp hb with ⟨⟨hb1, hb2⟩, hbn⟩
    by_contra hne
    exact hbn ((hmem b hb1 hb2).mpr hne)
  have hwm : cellAt G q ∈ availAt n (setCell G q 0) q := by
    refine mem_availAt.mpr ⟨⟨hwb.1, hwb.2⟩, ?_⟩
    intro hmm
    exact ((hmem _ hwb.1 hwb.2).mp hmm) rfl
  exact eq_singleton_of_mem_unique hnda hwm hchar

theorem lt_length_of_cellAt_ne {g : List ℤ} {p : ℕ} (h : cellAt g p ≠ 0) :
    p < g.length := by
  by_contra hl
  apply h
  unfold cellAt
  rw [List.getD_eq_getElem?_getD, List.getElem?_eq_none (Nat.le_of_not_lt hl)]
  rfl

theorem cellAt_clear_zero {g : List ℤ} {p : ℕ} (q : ℕ)
    (hp : cellAt g p = 0) : cellAt (setCell g q 0) p = 0 := by
  rw [cellAt_setCell]
  split
  · rfl
  · exact hp

theorem carve_keeps_zero (n : ℕ) :
    ∀ (order : List ℕ) (g : List ℤ) (nmax : ℤ) (p : ℕ),
      cellAt g p = 0 → cellAt (carveLoop n order g nmax) p = 0 := by
  intro order
  induction order with
  | nil => intro g nmax p hp; exact hp
  | cons q rest ih =>
    intro g nmax p hp
    simp only [carveLoop]
    by_cases hc : (availAt n (setCell g q 0) q).length = 1
    · rw [if_pos hc]
      by_cases hb : nmax - 1 = 0
      · rw [if_pos hb]
        exact cellAt_clear_zero q hp
      · rw [if_neg hb]
        exact ih _ _ p (cellAt_clear_zero q hp)
    · rw [if_neg hc]
      exact ih _ _ p hp

theorem carve_subset (n : ℕ) :
    ∀ (order : List ℕ) (g : List ℤ) (nmax : ℤ) (p : ℕ),
      cellAt (carveLoop n order g nmax) p = 0 ∨
        cellAt (carveLoop n order g nmax) p = cellAt g p := by
  intro order
  induction order with
  | nil => intro g nmax p; exact Or.inr rfl
  | cons q rest ih =>
    intro g nmax p
    simp only [carveLoop]
    have hset : cellAt (setCell g q 0) p = 0 ∨
        cellAt (setCell g q 0) p = cellAt g p := by
      rw [cellAt_setCell]
      split
      · exact Or.inl rfl
      · exact Or.inr rfl
    by_cases hc : (availAt n (setCell g q 0) q).length = 1
    · rw [if_pos hc]
      by_cases hb : nmax - 1 = 0
      · rw [if_pos hb]
        exact hset
      · rw [if_neg hb]
        rcases ih (setCell g q 0) (nmax - 1) p with h | h
        · exact Or.inl h
        · rw [h]
          exact hset
    · rw [if_neg hc]
      exact ih g nmax p

theorem carve_untouched (n : ℕ) :
    ∀ (order : List ℕ) (g : List ℤ) (nmax : ℤ) (p : ℕ), p ∉ order →
      cellAt (carveLoop n order g nmax) p = cellAt g p := by
  intro order
  induction order with
  | nil => intro g nmax p _; rfl
  | cons q rest ih =>
    intro g nmax p hp
    have hqp : q ≠ p := fun h => hp (h ▸ List.mem_cons_self q rest)
    have hpr : p ∉ rest := fun h => hp (List.mem_cons_of_mem q h)
    simp only [carveLoop]
    by_cases hc : (availAt n (setCell g q 0) q).length = 1
    · rw [if_pos hc]
      by_cases hb : nmax - 1 = 0
      · rw [if_pos hb]
        exact cellAt_setCell_ne g hqp 0
      · rw [if_neg hb, ih _ _ p hpr]
        exact cellAt_setCell_ne g hqp 0
    · rw [if_neg hc]
      exact ih g nmax p hpr

theorem carve_tried_iff (n : ℕ) :
    ∀ (order : List ℕ) (g : List ℤ) (nmax : ℤ), nmax < 0 → order.Nodup →
      ∀ p ∈ order, cellAt g p ≠ 0 →
        (cellAt (carveLoop n order g nmax) p = 0 ↔
          (availAt n (setCell (carveLoop n
            (order.takeWhile fun x => x != p) g nmax) p 0) p).length = 1) := by
  intro order
  induction order with
  | nil => intro g nmax _ _ p hp; cases hp
  | cons q rest ih =>
    intro g nmax hneg hnd p hp hpg
    rcases List.mem_cons.mp hp with rfl | hpr
    · have htw : (p :: rest).takeWhile (fun x => x != p) = [] := by
        simp [List.takeWhile_cons]
      rw [htw]
      simp only [carveLoop]
      by_cases hc : (availAt n (setCell g p 0) p).length = 1
      · rw [if_pos hc, if_neg (by omega : ¬ nmax - 1 = 0)]
        constructor
        · intro _
          exact hc
        · intro _
          refine carve_keeps_zero n rest _ _ p ?_
          exact cellAt_setCell_self g (lt_length_of_cellAt_ne hpg) 0
      · rw [if_neg hc]
        constructor
        · intro h0
          have hpr' : p ∉ rest := (List.nodup_cons.mp hnd).1
          rw [carve_untouched n rest g nmax p hpr'] at h0
          exact absurd h0 hpg
        · intro h1
          exact absurd h1 hc
    · have hqp : q ≠ p := fun h => (List.nodup_cons.mp hnd).1 (h ▸ hpr)
      have htw : (q :: rest).takeWhile (fun x => x != p) =
          q :: rest.takeWhile (fun x => x != p) := by
        simp [List.takeWhile_cons, hqp]
      rw [htw]
      simp only [carveLoop]
      by_cases hc : (availAt n (setCell g q 0) q).length = 1
      · rw [if_pos hc, if_pos hc, if_neg (by omega : ¬ nmax - 1 = 0),
          if_neg (by omega : ¬ nmax - 1 = 0)]
        exact ih (setCell g q 0) (nmax - 1) (by omega)
          (List.nodup_cons.mp hnd).2 p hpr
          (by rw [cellAt_setCell_ne g hqp]; exact hpg)
      · rw [if_neg hc, if_neg hc]
        exact ih g nmax hneg (List.nodup_cons.mp hnd).2 p hpr hpg

theorem validFull_cell_bounds {n : ℕ} {G : List ℤ} (hval : validFull n G)
    (hn : 0 < n) {p : ℕ} (hp : p < n * n) :
    1 ≤ cellAt G p ∧ cellAt G p ≤ (n : ℤ) := by
  have hrlt : p / n < n := Nat.div_lt_of_lt_mul hp
  have hm : cellAt G p ∈ rowVals n G (p / n) := by
    rw [rowVals_eq_map]
    exact List.mem_map.mpr ⟨p, mem_rowIdx_self hn, rfl⟩
  exact mem_oneToN.mp ((hval.1 _ hrlt).mem_iff.mp hm)

/-- C5: carver correctness.  For a complete valid grid `G` of side
`n > 1` and any seeded cell order, `gen_sudoku_puzzle` in
run-to-exhaustion mode accepts `G` and returns the carved grid; every
cell of the result is either cleared or equals the corresponding cell
of `G`; at least one cell is cleared; and a tried cell ends up cleared
iff, on the working grid at the moment it is tried, clearing it in a
scratch copy leaves its recomputed candidate set with exactly one
member. -/
theorem c5_carver_correct (n : ℕ) (G : List ℤ) (order : List ℕ)
    (hn : 1 < n) (hsq : intSqrt n * intSqrt n = n) (hlen : G.length = n * n)
    (hval : validFull n G) (hord : order.Perm (List.range (n * n))) :
    genSudokuPuzzle n G none order = Except.ok (carveLoop n order G (-1)) ∧
      (∀ p, cellAt (carveLoop n order G (-1)) p = 0 ∨
        cellAt (carveLoop n order G (-1)) p = cellAt G p) ∧
      (∃ p, p < n * n ∧ cellAt G p ≠ 0 ∧
        cellAt (carveLoop n order G (-1)) p = 0) ∧
      ∀ p ∈ order, (cellAt (carveLoop n order G (-1)) p = 0 ↔
        (availAt n (setCell (carveLoop n (order.takeWhile fun x => x != p)
          G (-1)) p 0) p).length = 1) := by
  have hn0 : 0 < n := by omega
  have hvalid : puzzleValidationOk n G = true :=
    (puzzleValidationOk_iff_rows n G hlen).mpr hval.1
  refine ⟨?_, fun p => carve_subset n order G (-1) p, ?_, ?_⟩
  · unfold genSudokuPuzzle
    rw [if_pos hvalid]
  · cases order with
    | nil =>
      exfalso
      have hlen0 := hord.length_eq
      simp only [List.length_nil, List.length_range] at hlen0
      have : 0 < n * n := Nat.mul_pos hn0 hn0
      omega
    | cons q rest =>
      have hqlt : q < n * n :=
        List.mem_range.mp (hord.mem_iff.mp (List.mem_cons_self q rest))
      have hne : cellAt G q ≠ 0 := by
        have := validFull_cell_bounds hval hn0 hqlt
        omega
      refine ⟨q, hqlt, hne, ?_⟩
      simp only [carveLoop]
      rw [if_pos (by rw [availAt_clear_singleton n G q hn0 hsq hlen hval hqlt]; rfl),
        if_neg (by omega : ¬ (-1 : ℤ) - 1 = 0)]
      exact carve_keeps_zero n rest _ _ q (cellAt_setCell_self G (by omega) 0)
  · intro p hp
    have hplt : p < n * n := List.mem_range.mp (hord.mem_iff.mp hp)
    have hpg : cellAt G p ≠ 0 := by
      have := validFull_cell_bounds hval hn0 hplt
      omega
    exact carve_tried_iff n order G (-1) (by omega)
      (hord.nodup_iff.mpr (List.nodup_range _)) p hp hpg

/-- Witness instantiating `c5_carver_correct` on the concrete 4×4 full
grid and the identity cell order. -/
theorem c5_carver_correct_witness :
    (1 < 4 ∧ intSqrt 4 * intSqrt 4 = 4 ∧ fullGrid4.length = 4 * 4 ∧
        validFull 4 fullGrid4 ∧ (List.range 16).Perm (List.range (4 * 4))) ∧
      (genSudokuPuzzle 4 fullGrid4 none (List.range 16) =
          Except.ok (carveLoop 4 (List.range 16) fullGrid4 (-1)) ∧
        (∀ p, cellAt (carveLoop 4 (List.range 16) fullGrid4 (-1)) p = 0 ∨
          cellAt (carveLoop 4 (List.range 16) fullGrid4 (-1)) p =
            cellAt fullGrid4 p) ∧
        (∃ p, p < 4 * 4 ∧ cellAt fullGrid4 p ≠ 0 ∧
          cellAt (carveLoop 4 (List.range 16) fullGrid4 (-1)) p = 0) ∧
        ∀ p ∈ List.range 16,
          (cellAt (carveLoop 4 (List.range 16) fullGrid4 (-1)) p = 0 ↔
            (availAt 4 (setCell (carveLoop 4
              ((List.range 16).takeWhile fun x => x != p) fullGrid4 (-1))
              p 0) p).length = 1)) :=
  ⟨⟨by decide, by decide, by decide, by decide, by decide⟩,
    c5_carver_correct 4 fullGrid4 (List.range 16) (by decide) (by decide)
      (by decide) (by decide) (by decide)⟩

theorem cellAt_map_range (f : ℕ → ℤ) (m p : ℕ) :
    cellAt ((List.range m).map f) p = if p < m then f p else 0 := by
  unfold cellAt
  by_cases h : p < m
  · rw [if_pos h, List.getD_eq_getElem?_getD,
      List.getElem?_eq_getElem (by simpa using h)]
    simp
  · rw [if_neg h, List.getD_eq_getElem?_getD,
      List.getElem?_eq_none (by simpa using Nat.le_of_not_lt h)]
    rfl

/-- The grid as it was when the cursor stood at cell `j`: cells before
`j` keep their current values (they have not changed since), cells from
`j` on are empty. -/
def zeroFrom (n : ℕ) (g : List ℤ) (j : ℕ) : List ℤ :=
  (List.range (n * n)).map fun p => if p < j then cellAt g p else 0

theorem cellAt_zeroFrom (n : ℕ) (g : List ℤ) (j p : ℕ) :
    cellAt (zeroFrom n g j) p =
      if p < j ∧ p < n * n then cellAt g p else 0 := by
  unfold zeroFrom
  rw [cellAt_map_range]
  by_cases h1 : p < n * n
  · rw [if_pos h1]
    by_cases h2 : p < j
    · rw [if_pos h2, if_pos ⟨h2, h1⟩]
    · rw [if_neg h2, if_neg (fun hc => h2 hc.1)]
  · rw [if_neg h1, if_neg (fun hc => h1 hc.2)]

theorem zeroFrom_congr {n : ℕ} {g g' : List ℤ} {j : ℕ}
    (h : ∀ p, p < j → cellAt g p = cellAt g' p) :
    zeroFrom n g j = zeroFrom n g' j := by
  unfold zeroFrom
  refine List.map_congr_left fun p _ => ?_
  by_cases hp : p < j
  · rw [if_pos hp, if_pos hp, h p hp]
  · rw [if_neg hp, if_neg hp]

theorem zeroFrom_eq_self {n : ℕ} {g : List ℤ} {j : ℕ}
    (hlen : g.length = n * n) (hup : ∀ p, j ≤ p → cellAt g p = 0) :
    zeroFrom n g j = g := by
  refine List.ext_getElem? fun p => ?_
  have hzl : (zeroFrom n g j).length = n * n := by
    unfold zeroFrom
    simp
  by_cases hp : p < n * n
  · have hpl : p < g.length := by omega
    have hcell : cellAt g p = g[p] := by
      unfold cellAt
      rw [List.getD_eq_getElem?_getD, List.getElem?_eq_getElem hpl]
      rfl
    have h1 : (zeroFrom n g j)[p]? = some (if p < j then cellAt g p else 0) := by
      unfold zeroFrom
      rw [List.getElem?_map, List.getElem?_range hp]
      rfl
    rw [h1, List.getElem?_eq_getElem hpl]
    congr 1
    by_cases hj : p < j
    · rw [if_pos hj, hcell]
    · rw [if_neg hj, ← hcell]
      exact (hup p (Nat.le_of_not_lt hj)).symm
  · rw [List.getElem?_eq_none (by omega), List.getElem?_eq_none (by omega)]

/-- Invariant on the generator's frame stack (`avail_lst`, top first):
every frame's remaining candidates are legal values for its cell given
the cells placed before it, and every frame's head is the value
currently placed at its cell. -/
def FramesInv (n : ℕ) (g : List ℤ) : List (List ℤ) → Prop
  | [] => True
  | f :: rest =>
    (∀ v ∈ f, v ∈ availAt n (zeroFrom n g rest.length) rest.length) ∧
      (∃ t, f = cellAt g rest.length :: t) ∧ FramesInv n g rest

/-- Invariant of the `gen_sudoku_full` backtracking loop. -/
structure GenInv (n : ℕ) (g : List ℤ) (fs : List (List ℤ)) : Prop where
  len : g.length = n * n
  flen : fs.length ≤ n * n
  upper : ∀ p, fs.length ≤ p → cellAt g p = 0
  frames : FramesInv n g fs

theorem framesInv_congr {n : ℕ} {g g' : List ℤ} :
    ∀ {fs : List (List ℤ)}, FramesInv n g fs →
      (∀ p, p < fs.length → cellAt g p = cellAt g' p) → FramesInv n g' fs := by
  intro fs
  induction fs with
  | nil => intro _ _; trivial
  | cons f rest ih =>
    rintro ⟨hav, ⟨t, hht⟩, hrest⟩ hagree
    have hz : zeroFrom n g rest.length = zeroFrom n g' rest.length :=
      zeroFrom_congr fun p hp => hagree p (by simp; omega)
    refine ⟨fun v hv => hz ▸ hav v hv, ⟨t, ?_⟩, ?_⟩
    · rw [← hagree rest.length (by simp)]
      exact hht
    · exact ih hrest fun p hp => hagree p (by simp; omega)

theorem framesInv_cellAt {n : ℕ} {g : List ℤ} :
    ∀ {fs : List (List ℤ)}, FramesInv n g fs →
      ∀ j, j < fs.length → cellAt g j ∈ availAt n (zeroFrom n g j) j := by
  intro fs
  induction fs with
  | nil => intro _ j hj; simp at hj
  | cons f rest ih =>
    rintro ⟨hav, ⟨t, hht⟩, hrest⟩ j hj
    rcases Nat.lt_or_ge j rest.length with h | h
    · exact ih hrest j h
    · have hje : j = rest.length := by simp at hj; omega
      subst hje
      exact hav _ (hht ▸ List.mem_cons_self _ _)

theorem genInv_pop {n : ℕ} {g : List ℤ} {f : List ℤ} {rest : List (List ℤ)}
    (hinv : GenInv n g (f :: rest)) :
    GenInv n (setCell g rest.length 0) rest := by
  have hrl : rest.length < n * n := by
    have := hinv.flen
    simp at this
    omega
  refine ⟨by rw [length_setCell, hinv.len], by omega, ?_, ?_⟩
  · intro p hp
    by_cases hpr : p = rest.length
    · subst hpr
      exact cellAt_setCell_self g (by rw [hinv.len]; omega) 0
    · rw [cellAt_setCell_ne g (fun h => hpr h.symm) 0]
      exact hinv.upper p (by simp; omega)
  · exact framesInv_congr hinv.frames.2.2
      fun p hp => (cellAt_setCell_ne g (by omega) 0).symm

theorem genInv_replace {n : ℕ} {g : List ℤ} {x v : ℤ} {t : List ℤ}
    {rest : List (List ℤ)} (hinv : GenInv n g ((x :: v :: t) :: rest)) :
    GenInv n (setCell g rest.length v) ((v :: t) :: rest) := by
  have hrl : rest.length < n * n := by
    have := hinv.flen
    simp at this
    omega
  have hgl : rest.length < g.length := by rw [hinv.len]; omega
  refine ⟨by rw [length_setCell, hinv.len], by simpa using hinv.flen, ?_, ?_⟩
  · intro p hp
    simp at hp
    rw [cellAt_setCell_ne g (by omega) v]
    exact hinv.upper p (by simp; omega)
  · have hav := hinv.frames.1
    have hz : zeroFrom n g rest.length =
        zeroFrom n (setCell g rest.length v) rest.length :=
      zeroFrom_congr fun p hp => (cellAt_setCell_ne g (by omega) v).symm
    refine ⟨fun w hw => hz ▸ hav w (List.mem_cons_of_mem x hw), ⟨t, ?_⟩, ?_⟩
    · rw [cellAt_setCell_self g hgl v]
    · exact framesInv_congr hinv.frames.2.2
        fun p hp => (cellAt_setCell_ne g (by omega) v).symm

theorem genInv_push {n : ℕ} {g : List ℤ} {fs : List (List ℤ)} {v : ℤ}
    {t : List ℤ} (hinv : GenInv n g fs) (hlt : fs.length < n * n)
    (hperm : (v :: t).Perm (availAt n g fs.length)) :
    GenInv n (setCell g fs.length v) ((v :: t) :: fs) := by
  have hgl : fs.length < g.length := by rw [hinv.len]; omega
  refine ⟨by rw [length_setCell, hinv.len], by simp; omega, ?_, ?_⟩
  · intro p hp
    simp at hp
    rw [cellAt_setCell_ne g (by omega) v]
    exact hinv.upper p (by omega)
  · have hz : zeroFrom n (setCell g fs.length v) fs.length = g := by
      have h1 : zeroFrom n (setCell g fs.length v) fs.length =
          zeroFrom n g fs.length :=
        zeroFrom_congr fun p hp => cellAt_setCell_ne g (by omega) v
      rw [h1]
      exact zeroFrom_eq_self hinv.len hinv.upper
    refine ⟨fun w hw => ?_, ⟨t, ?_⟩, ?_⟩
    · rw [hz]
      exact hperm.mem_iff.mp hw
    · rw [cellAt_setCell_self g hgl v]
    · exact framesInv_congr hinv.frames
        fun p hp => (cellAt_setCell_ne g (by omega) v).symm

theorem rollback_inv {n : ℕ} :
    ∀ (fs : List (List ℤ)) (g : List ℤ), GenInv n g fs →
      ∀ g' fs', rollback g fs = some (g', fs') → GenInv n g' fs' := by
  intro fs
  induction fs with
  | nil =>
    intro g _ g' fs' hrb
    rw [rollback] at hrb
    cases hrb
  | cons f rest ih =>
    intro g hinv g' fs' hrb
    rw [rollback] at hrb
    by_cases hf1 : f.length = 1
    · rw [if_pos hf1] at hrb
      exact ih (setCell g rest.length 0) (genInv_pop hinv) g' fs' hrb
    · rw [if_neg hf1] at hrb
      rcases f with _ | ⟨x, _ | ⟨v, t⟩⟩
      · rw [if_neg (by simp)] at hrb
        cases hrb
      · exact absurd (List.length_singleton x) hf1
      · rw [if_pos (by simp)] at hrb
        injection hrb with h'
        injection h' with hg hfs
        subst hg
        subst hfs
        exact genInv_replace hinv

theorem mem_boxIdx_iff {n p q : ℕ} :
    q ∈ boxIdx n p ↔ ∃ di, di < intSqrt n ∧ ∃ dj, dj < intSqrt n ∧
      (p / n / intSqrt n * intSqrt n + di) * n +
        (p % n / intSqrt n * intSqrt n + dj) = q := by
  unfold boxIdx
  simp only [List.mem_flatMap, List.mem_map, List.mem_range]

theorem intSqrt_pos {n : ℕ} (hsq : intSqrt n * intSqrt n = n) (hn : 0 < n) :
    0 < intSqrt n := by
  rcases Nat.eq_zero_or_pos (intSqrt n) with h | h
  · rw [h] at hsq
    omega
  · exact h

theorem box_coord_lt {n : ℕ} (hsq : intSqrt n * intSqrt n = n) (hn : 0 < n)
    {m d : ℕ} (hm : m < n) (hd : d < intSqrt n) :
    m / intSqrt n * intSqrt n + d < n := by
  have hk : 0 < intSqrt n := intSqrt_pos hsq hn
  have h1 : m / intSqrt n < intSqrt n := by
    apply Nat.div_lt_of_lt_mul
    rw [hsq]
    exact hm
  have h2 : (m / intSqrt n + 1) * intSqrt n ≤ intSqrt n * intSqrt n :=
    Nat.mul_le_mul_right _ h1
  calc m / intSqrt n * intSqrt n + d
      < (m / intSqrt n + 1) * intSqrt n := by
        rw [Nat.add_mul, Nat.one_mul]
        omega
    _ ≤ intSqrt n * intSqrt n := h2
    _ = n := hsq

theorem box_coord_div {n a b : ℕ} (hn : 0 < n) (hb : b < n) :
    (a * n + b) / n = a := by
  rw [Nat.mul_comm, Nat.mul_add_div hn, Nat.div_eq_of_lt hb, Nat.add_zero]

theorem box_coord_mod {n a b : ℕ} (hb : b < n) : (a * n + b) % n = b := by
  rw [Nat.mul_comm, Nat.mul_add_mod, Nat.mod_eq_of_lt hb]

theorem boxIdx_mem_props {n p q : ℕ} (hsq : intSqrt n * intSqrt n = n)
    (hn : 0 < n) (hp : p < n * n) (hq : q ∈ boxIdx n p) :
    q < n * n ∧ boxIdx n q = boxIdx n p := by
  have hk : 0 < intSqrt n := intSqrt_pos hsq hn
  rcases mem_boxIdx_iff.mp hq with ⟨di, hdi, dj, hdj, hqe⟩
  have hrow : p / n < n := Nat.div_lt_of_lt_mul hp
  have hcol : p % n < n := Nat.mod_lt _ hn
  have hr : p / n / intSqrt n * intSqrt n + di < n := box_coord_lt hsq hn hrow hdi
  have hc : p % n / intSqrt n * intSqrt n + dj < n := box_coord_lt hsq hn hcol hdj
  have hdiv : q / n = p / n / intSqrt n * intSqrt n + di := by
    rw [← hqe]
    exact box_coord_div hn hc
  have hmod : q % n = p % n / intSqrt n * intSqrt n + dj := by
    rw [← hqe]
    exact box_coord_mod hc
  constructor
  · rw [← hqe]
    nlinarith
  · have e1 : q / n / intSqrt n = p / n / intSqrt n := by
      rw [hdiv, Nat.mul_comm, Nat.mul_add_div hk, Nat.div_eq_of_lt hdi,
        Nat.add_zero]
    have e2 : q % n / intSqrt n = p % n / intSqrt n := by
      rw [hmod, Nat.mul_comm, Nat.mul_add_div hk, Nat.div_eq_of_lt hdj,
        Nat.add_zero]
    unfold boxIdx
    dsimp only
    rw [e1, e2]

theorem rowIdx_length (n r : ℕ) : (rowIdx n r).length = n := by
  simp [rowIdx]

theorem colIdx_length (n c : ℕ) : (colIdx n c).length = n := by
  simp [colIdx]

theorem rowIdx_nodup (n r : ℕ) : (rowIdx n r).Nodup := by
  unfold rowIdx
  refine List.Nodup.map ?_ (List.nodup_range n)
  intro a b h
  have h2 : r * n + a = r * n + b := h
  omega

theorem colIdx_nodup {n : ℕ} (hn : 0 < n) (c : ℕ) : (colIdx n c).Nodup := by
  unfold colIdx
  refine List.Nodup.map ?_ (List.nodup_range n)
  intro a b h
  have h2 : a * n + c = b * n + c := h
  have h3 : a * n = b * n := by omega
  exact Nat.eq_of_mul_eq_mul_right hn h3

theorem boxIdx_length {n : ℕ} (hsq : intSqrt n * intSqrt n = n) (p : ℕ) :
    (boxIdx n p).length = n := by
  unfold boxIdx
  rw [List.length_flatMap]
  have hmap : List.map (List.length ∘ fun di =>
      (List.range (intSqrt n)).map fun dj =>
        (p / n / intSqrt n * intSqrt n + di) * n +
          (p % n / intSqrt n * intSqrt n + dj)) (List.range (intSqrt n)) =
      List.replicate (intSqrt n) (intSqrt n) := by
    rw [List.eq_replicate_iff]
    constructor
    · simp
    · intro b hb
      rcases List.mem_map.mp hb with ⟨di, _, rfl⟩
      simp
  rw [hmap, List.sum_replicate, smul_eq_mul, hsq]

theorem boxIdx_nodup {n : ℕ} (hsq : intSqrt n * intSqrt n = n) (hn : 0 < n)
    {p : ℕ} (hp : p < n * n) : (boxIdx n p).Nodup := by
  have hk : 0 < intSqrt n := intSqrt_pos hsq hn
  have hcol : p % n < n := Nat.mod_lt _ hn
  unfold boxIdx
  rw [List.nodup_flatMap]
  constructor
  · intro di _
    refine List.Nodup.map ?_ (List.nodup_range _)
    intro a b h
    have h2 : (p / n / intSqrt n * intSqrt n + di) * n +
        (p % n / intSqrt n * intSqrt n + a) =
        (p / n / intSqrt n * intSqrt n + di) * n +
        (p % n / intSqrt n * intSqrt n + b) := h
    omega
  · have hpl : List.Pairwise (· < ·) (List.range (intSqrt n)) :=
      List.pairwise_lt_range _
    refine hpl.imp ?_
    intro di di' hlt q hq hq'
    rcases List.mem_map.mp hq with ⟨dj, hdj, hqe⟩
    rcases List.mem_map.mp hq' with ⟨dj', hdj', hqe'⟩
    rw [List.mem_range] at hdj hdj'
    have hc : p % n / intSqrt n * intSqrt n + dj < n :=
      box_coord_lt hsq hn hcol hdj
    have hc' : p % n / intSqrt n * intSqrt n + dj' < n :=
      box_coord_lt hsq hn hcol hdj'
    have h1 : q / n = p / n / intSqrt n * intSqrt n + di := by
      rw [← hqe]
      exact box_coord_div hn hc
    have h2 : q / n = p / n / intSqrt n * intSqrt n + di' := by
      rw [← hqe']
      exact box_coord_div hn hc'
    omega

theorem gen_distinct {n : ℕ} {g : List ℤ}
    (hcell : ∀ j, j < n * n → cellAt g j ∈ availAt n (zeroFrom n g j) j)
    {q q' : ℕ} (hq : q < n * n) (hq' : q' < n * n) (hlt : q' < q)
    (hunit : q' ∈ rowIdx n (q / n) ∨ q' ∈ colIdx n (q % n) ∨
      q' ∈ boxIdx n q) :
    cellAt g q ≠ cellAt g q' := by
  rcases mem_availAt.mp (hcell q hq) with ⟨⟨h1, h2⟩, hnex⟩
  intro heq
  apply hnex
  rw [existVals_decomp]
  have hcz : cellAt (zeroFrom n g q) q' = cellAt g q' := by
    rw [cellAt_zeroFrom, if_pos ⟨hlt, hq'⟩]
  rcases hunit with h | h | h
  · exact List.mem_append.mpr (Or.inl (List.mem_append.mpr (Or.inl
      (List.mem_map.mpr ⟨q', h, by rw [hcz, ← heq]⟩))))
  · exact List.mem_append.mpr (Or.inl (List.mem_append.mpr (Or.inr
      (List.mem_map.mpr ⟨q', h, by rw [hcz, ← heq]⟩))))
  · exact List.mem_append.mpr (Or.inr
      (List.mem_map.mpr ⟨q', h, by rw [hcz, ← heq]⟩))

theorem gen_unit_perm {n : ℕ} {g : List ℤ} (hn : 0 < n)
    (hcell : ∀ j, j < n * n → cellAt g j ∈ availAt n (zeroFrom n g j) j)
    (I : List ℕ) (hnd : I.Nodup) (hIlen : I.length = n)
    (hin : ∀ q ∈ I, q < n * n)
    (hclose : ∀ q ∈ I, ∀ q' ∈ I,
      q' ∈ rowIdx n (q / n) ∨ q' ∈ colIdx n (q % n) ∨ q' ∈ boxIdx n q) :
    (I.map (cellAt g)).Perm (oneToN n) := by
  have hvnd : (I.map (cellAt g)).Nodup := by
    refine List.Nodup.map_on ?_ hnd
    intro q hqI q' hq'I hf
    by_contra hne
    rcases Nat.lt_or_ge q q' with hlt | hge
    · exact gen_distinct hcell (hin q' hq'I) (hin q hqI) hlt
        (hclose q' hq'I q hqI) hf.symm
    · have hlt' : q' < q := by omega
      exact gen_distinct hcell (hin q hqI) (hin q' hq'I) hlt'
        (hclose q hqI q' hq'I) hf
  have hsub : I.map (cellAt g) ⊆ oneToN n := by
    intro v hv
    rcases List.mem_map.mp hv with ⟨q, hqI, rfl⟩
    rcases mem_availAt.mp (hcell q (hin q hqI)) with ⟨⟨h1, h2⟩, _⟩
    exact mem_oneToN.mpr ⟨h1, h2⟩
  exact (hvnd.subperm hsub).perm_of_length_le
    (by rw [List.length_map, hIlen, oneToN_length])

theorem genInv_complete_valid {n : ℕ} (hsq : intSqrt n * intSqrt n = n)
    {g : List ℤ} {fs : List (List ℤ)} (hinv : GenInv n g fs)
    (hfull : n * n ≤ fs.length) : validFull n g := by
  rcases Nat.eq_zero_or_pos n with hn0 | hn
  · subst hn0
    exact ⟨fun r hr => absurd hr (by omega), fun c hc => absurd hc (by omega),
      fun p hp => absurd hp (by omega)⟩
  have hcell : ∀ j, j < n * n → cellAt g j ∈ availAt n (zeroFrom n g j) j :=
    fun j hj => framesInv_cellAt hinv.frames j (by omega)
  refine ⟨?_, ?_, ?_⟩
  · intro r hr
    rw [rowVals_eq_map]
    refine gen_unit_perm hn hcell _ (rowIdx_nodup n r) (rowIdx_length n r)
      ?_ ?_
    · intro q hq
      rcases List.mem_map.mp hq with ⟨j, hj, rfl⟩
      rw [List.mem_range] at hj
      nlinarith
    · intro q hq q' hq'
      left
      rcases List.mem_map.mp hq with ⟨j, hj, rfl⟩
      rw [List.mem_range] at hj
      rw [box_coord_div hn hj]
      exact hq'
  · intro c hc
    rw [colVals_eq_map]
    refine gen_unit_perm hn hcell _ (colIdx_nodup hn c) (colIdx_length n c)
      ?_ ?_
    · intro q hq
      rcases List.mem_map.mp hq with ⟨i, hi, rfl⟩
      rw [List.mem_range] at hi
      nlinarith
    · intro q hq q' hq'
      right
      left
      rcases List.mem_map.mp hq with ⟨i, hi, rfl⟩
      rw [List.mem_range] at hi
      rw [box_coord_mod hc]
      exact hq'
  · intro p hp
    rw [boxVals_eq_map]
    refine gen_unit_perm hn hcell _ (boxIdx_nodup hsq hn hp)
      (boxIdx_length hsq p) ?_ ?_
    · intro q hq
      exact (boxIdx_mem_props hsq hn hp hq).1
    · intro q hq q' hq'
      right
      right
      rw [(boxIdx_mem_props hsq hn hp hq).2]
      exact hq'

theorem genRun_done_valid (n : ℕ) (sh : ℕ → List ℤ → List ℤ)
    (hsh : ∀ c l, (sh c l).Perm l) (hsq : intSqrt n * intSqrt n = n) :
    ∀ (fuel c : ℕ) (g : List ℤ) (fs : List (List ℤ)) (out : List ℤ),
      GenInv n g fs → genRun n sh fuel c g fs = some (GenOut.done out) →
      validFull n out := by
  intro fuel
  induction fuel with
  | zero =>
    intro c g fs out _ h
    rw [genRun] at h
    cases h
  | succ fuel ih =>
    intro c g fs out hinv hrun
    rw [genRun] at hrun
    by_cases hful : n * n ≤ fs.length
    · rw [if_pos hful] at hrun
      injection hrun with h'
      injection h' with h''
      exact h'' ▸ genInv_complete_valid hsq hinv hful
    · rw [if_neg hful] at hrun
      by_cases hemp : (availAt n g fs.length).isEmpty
      · rw [if_pos hemp] at hrun
        cases hrb : rollback g fs with
        | none =>
          rw [hrb] at hrun
          injection hrun with h'
          cases h'
        | some pr =>
          obtain ⟨g', fs'⟩ := pr
          rw [hrb] at hrun
          exact ih c g' fs' out (rollback_inv fs g hinv g' fs' hrb) hrun
      · rw [if_neg hemp] at hrun
        cases hsh' : sh c (availAt n g fs.length) with
        | nil =>
          rw [hsh'] at hrun
          injection hrun with h'
          cases h'
        | cons v t =>
          rw [hsh'] at hrun
          refine ih (c + 1) _ _ out
            (genInv_push hinv (by omega) ?_) hrun
          rw [← hsh']
          exact hsh c _

theorem cellAt_replicate_zero (m p : ℕ) :
    cellAt (List.replicate m (0 : ℤ)) p = 0 := by
  unfold cellAt
  by_cases h : p < m
  · rw [List.getD_eq_getElem?_getD,
      List.getElem?_eq_getElem (by simpa using h), List.getElem_replicate]
    rfl
  · rw [List.getD_eq_getElem?_getD,
      List.getElem?_eq_none (by simpa using Nat.le_of_not_lt h)]
    rfl

/-- C4: full-grid validity.  For every perfect-square side `n` (the
sizes 4, 9, 16, 25 included) and every shuffle oracle whose outputs
are permutations of its inputs (every seed), if the backtracking loop
of `gen_sudoku_full` terminates with a grid, then every row, every
column and every `√n × √n` box of that grid is a permutation of
`[1, n]`. -/
theorem c4_full_grid_valid (n : ℕ) (sh : ℕ → List ℤ → List ℤ) (fuel : ℕ)
    (out : List ℤ) (hsh : ∀ c l, (sh c l).Perm l)
    (hsq : intSqrt n * intSqrt n = n)
    (hrun : genRun n sh fuel 0 (List.replicate (n * n) 0) [] =
      some (GenOut.done out)) :
    validFull n out := by
  refine genRun_done_valid n sh hsh hsq fuel 0 _ [] out
    ⟨List.length_replicate _ _, by simp, ?_, trivial⟩ hrun
  intro p _
  exact cellAt_replicate_zero _ p

/-- Witness instantiating `c4_full_grid_valid` with `n = 4` and the
identity shuffle oracle. -/
theorem c4_full_grid_valid_witness :
    ((∀ c l, (idOracle c l).Perm l) ∧ intSqrt 4 * intSqrt 4 = 4 ∧
        genRun 4 idOracle 40 0 (List.replicate (4 * 4) 0) [] =
          some (GenOut.done fullGrid4)) ∧
      validFull 4 fullGrid4 :=
  ⟨⟨fun _ l => List.Perm.refl l, by decide, rfl⟩,
    c4_full_grid_valid 4 idOracle 40 fullGrid4 (fun _ l => List.Perm.refl l)
      (by decide) rfl⟩

/-- Refutation soundness of the frame stack: every complete valid grid
that agrees with the working grid on the cells before frame `j`'s cell
takes a value from frame `j`'s remaining candidate list at that cell.
Values popped from a frame are thus refuted for the current prefix. -/
def RefFrames (n : ℕ) (g : List ℤ) : List (List ℤ) → Prop
  | [] => True
  | f :: rest =>
    (∀ w, validFull n w → w.length = n * n →
      (∀ p, p < rest.length → cellAt w p = cellAt g p) →
      cellAt w rest.length ∈ f) ∧ RefFrames n g rest

theorem refFrames_congr {n : ℕ} {g g' : List ℤ} :
    ∀ {fs : List (List ℤ)}, RefFrames n g fs →
      (∀ p, p < fs.length → cellAt g p = cellAt g' p) → RefFrames n g' fs := by
  intro fs
  induction fs with
  | nil => intro _ _; trivial
  | cons f rest ih =>
    rintro ⟨htop, hrest⟩ hag
    refine ⟨?_, ih hrest fun p hp => hag p (by simp; omega)⟩
    intro w hv hl hext
    exact htop w hv hl fun p hp =>
      (hext p hp).trans (hag p (by simp; omega)).symm

/-- Any complete valid grid extending the filled prefix of the working
grid takes, at the cursor cell, a value from the cursor cell's
candidate list. -/
theorem extension_cell_mem_avail {n : ℕ} (hsq : intSqrt n * intSqrt n = n)
    (hn : 0 < n) {g w : List ℤ} (hwval : validFull n w)
    {i : ℕ} (hi : i < n * n)
    (hzero : ∀ p, i ≤ p → cellAt g p = 0)
    (hext : ∀ p, p < i → cellAt w p = cellAt g p) :
    cellAt w i ∈ availAt n g i := by
  have hb := validFull_cell_bounds hwval hn hi
  refine mem_availAt.mpr ⟨hb, ?_⟩
  intro hmem
  rw [existVals_decomp] at hmem
  have hgen : ∀ (I : List ℕ), i ∈ I → (I.map (cellAt w)).Nodup →
      cellAt w i ∈ I.map (cellAt g) → False := by
    intro I hiI hnd hmm
    rcases List.mem_map.mp hmm with ⟨p', hp'I, hp'e⟩
    have hne0 : cellAt g p' ≠ 0 := by
      rw [hp'e]
      omega
    have hplt : p' < i := by
      by_contra h
      exact hne0 (hzero p' (Nat.le_of_not_lt h))
    have hwp : cellAt w p' = cellAt w i := by
      rw [hext p' hplt, hp'e]
    have : p' = i := List.inj_on_of_nodup_map hnd hp'I hiI hwp
    omega
  have hrlt : i / n < n := Nat.div_lt_of_lt_mul hi
  have hclt : i % n < n := Nat.mod_lt _ hn
  rcases List.mem_append.mp hmem with hm | hm
  · rcases List.mem_append.mp hm with hm2 | hm2
    · refine hgen _ (mem_rowIdx_self hn) ?_ hm2
      rw [← rowVals_eq_map]
      exact ((hwval.1 _ hrlt).nodup_iff).mpr (oneToN_nodup n)
    · refine hgen _ (mem_colIdx_self hn hi) ?_ hm2
      rw [← colVals_eq_map]
      exact ((hwval.2.1 _ hclt).nodup_iff).mpr (oneToN_nodup n)
  · refine hgen _ (mem_boxIdx_self hsq hn) ?_ hm
    rw [← boxVals_eq_map]
    exact ((hwval.2.2 i hi).nodup_iff).mpr (oneToN_nodup n)

/-- If no complete valid grid extends the current prefix, the rollback
loop stops at a frame with an untried alternative — it never pops past
the first frame (given that some complete valid grid exists at all) —
and re-establishes both invariants. -/
theorem rollback_ref {n : ℕ}
    (hex : ∃ w, validFull n w ∧ w.length = n * n) :
    ∀ (fs : List (List ℤ)) (g : List ℤ),
      GenInv n g fs → RefFrames n g fs →
      (∀ w, validFull n w → w.length = n * n →
        ¬ (∀ p, p < fs.length → cellAt w p = cellAt g p)) →
      ∃ g' fs', rollback g fs = some (g', fs') ∧ GenInv n g' fs' ∧
        RefFrames n g' fs' := by
  intro fs
  induction fs with
  | nil =>
    intro g _ _ hnoext
    obtain ⟨w, hv, hl⟩ := hex
    exact absurd (fun p hp => absurd hp (by simp)) (hnoext w hv hl)
  | cons f rest ih =>
    intro g hinv href hnoext
    obtain ⟨htop, hrest⟩ := href
    obtain ⟨hav, ⟨t, hft⟩, hfr⟩ := hinv.frames
    by_cases hf1 : f.length = 1
    · have ht0 : t = [] := by
        rw [hft] at hf1
        simpa using hf1
      have hft1 : f = [cellAt g rest.length] := by
        rw [hft, ht0]
      have hnoext' : ∀ w, validFull n w → w.length = n * n →
          ¬ (∀ p, p < rest.length →
            cellAt w p = cellAt (setCell g rest.length 0) p) := by
        intro w hv hl hext
        have hextg : ∀ p, p < rest.length → cellAt w p = cellAt g p :=
          fun p hp => (hext p hp).trans (cellAt_setCell_ne g (by omega) 0)
        have hmem : cellAt w rest.length ∈ f := htop w hv hl hextg
        rw [hft1] at hmem
        have hwr : cellAt w rest.length = cellAt g rest.length := by
          simpa using hmem
        refine hnoext w hv hl ?_
        intro p hp
        simp at hp
        rcases Nat.lt_or_ge p rest.length with h | h
        · exact hextg p h
        · have hpe : p = rest.length := by omega
          subst hpe
          exact hwr
      obtain ⟨g', fs', hrb, hinv', href'⟩ := ih (setCell g rest.length 0)
        (genInv_pop hinv)
        (refFrames_congr hrest
          fun p hp => (cellAt_setCell_ne g (by omega) 0).symm)
        hnoext'
      refine ⟨g', fs', ?_, hinv', href'⟩
      rw [rollback, if_pos hf1]
      exact hrb
    · have ht1 : t ≠ [] := by
        intro h
        rw [hft, h] at hf1
        exact hf1 (List.length_singleton _)
      obtain ⟨v, t', ht'⟩ := List.exists_cons_of_ne_nil ht1
      have hfe : f = cellAt g rest.length :: v :: t' := by
        rw [hft, ht']
      have hf2 : 2 ≤ f.length := by
        rw [hfe]
        simp
      refine ⟨setCell g rest.length (f.tail.headD 0), f.tail :: rest,
        by rw [rollback, if_neg hf1, if_pos hf2], ?_, ?_⟩
      · have hinv2 : GenInv n g ((cellAt g rest.length :: v :: t') :: rest) :=
          hfe ▸ hinv
        have := genInv_replace hinv2
        rw [hfe]
        simpa using this
      · have htail : f.tail = v :: t' := by
          rw [hfe]
          rfl
        constructor
        · intro w hv' hl' hext
          have hextg : ∀ p, p < rest.length → cellAt w p = cellAt g p :=
            fun p hp =>
              (hext p hp).trans (cellAt_setCell_ne g (by omega) _)
        -- the value at the frame cell is in the old frame
          have hmem : cellAt w rest.length ∈ f := htop w hv' hl' hextg
          rw [htail]
          rw [hfe] at hmem
          rcases List.mem_cons.mp hmem with heq | hmem2
          · exfalso
            refine hnoext w hv' hl' ?_
            intro p hp
            simp at hp
            rcases Nat.lt_or_ge p rest.length with h | h
            · exact hextg p h
            · have hpe : p = rest.length := by omega
              subst hpe
              exact heq
          · exact hmem2
        · exact refFrames_congr hrest
            fun p hp => (cellAt_setCell_ne g (by omega) _).symm

/-- The backtracking loop never reaches a crash state (rolling back
past the first frame, an out-of-range frame access, or an empty
shuffle result), provided some complete valid grid of side `n`
exists. -/
theorem genRun_no_crash (n : ℕ) (sh : ℕ → List ℤ → List ℤ)
    (hsh : ∀ c l, (sh c l).Perm l) (hsq : intSqrt n * intSqrt n = n)
    (hn : 0 < n) (hex : ∃ w, validFull n w ∧ w.length = n * n) :
    ∀ (fuel c : ℕ) (g : List ℤ) (fs : List (List ℤ)),
      GenInv n g fs → RefFrames n g fs →
      genRun n sh fuel c g fs ≠ some GenOut.crash := by
  intro fuel
  induction fuel with
  | zero =>
    intro c g fs _ _ h
    rw [genRun] at h
    cases h
  | succ fuel ih =>
    intro c g fs hinv href hrun
    rw [genRun] at hrun
    by_cases hful : n * n ≤ fs.length
    · rw [if_pos hful] at hrun
      injection hrun with h'
      cases h'
    · rw [if_neg hful] at hrun
      by_cases hemp : (availAt n g fs.length).isEmpty
      · rw [if_pos hemp] at hrun
        have hnoext : ∀ w, validFull n w → w.length = n * n →
            ¬ (∀ p, p < fs.length → cellAt w p = cellAt g p) := by
          intro w hv hl hext
          have hm := extension_cell_mem_avail hsq hn hv
            (show fs.length < n * n by omega) hinv.upper hext
          rw [List.isEmpty_iff.mp hemp] at hm
          cases hm
        obtain ⟨g', fs', hrb, hinv', href'⟩ :=
          rollback_ref hex fs g hinv href hnoext
        rw [hrb] at hrun
        exact ih c g' fs' hinv' href' hrun
      · rw [if_neg hemp] at hrun
        have hpe := hsh c (availAt n g fs.length)
        cases hsh' : sh c (availAt n g fs.length) with
        | nil =>
          rw [hsh'] at hpe
          exact hemp (by rw [hpe.symm.eq_nil]; rfl)
        | cons v t =>
          rw [hsh'] at hrun
          rw [hsh'] at hpe
          refine ih (c + 1) _ _
            (genInv_push hinv (by omega) hpe) ?_ hrun
          constructor
          · intro w hv' hl' hext
            have hextg : ∀ p, p < fs.length → cellAt w p = cellAt g p :=
              fun p hp => (hext p hp).trans (cellAt_setCell_ne g (by omega) v)
            have hm := extension_cell_mem_avail hsq hn hv'
              (show fs.length < n * n by omega) hinv.upper hextg
            exact hpe.mem_iff.mpr hm
          · exact refFrames_congr href
              fun p hp => (cellAt_setCell_ne g (by omega) v).symm

/-- Position-wise value of a canonical complete valid grid with boxes
of side `k`: cell `(i, j)` holds `((i*k + i/k + j) mod k²) + 1`. -/
def canonValue (k p : ℕ) : ℕ :=
  (p / (k * k) * k + p / (k * k) / k + p % (k * k)) % (k * k)

/-- A canonical complete valid Sudoku grid of side `k²`. -/
def canonGrid (k : ℕ) : List ℤ :=
  (List.range (k * k * (k * k))).map fun p : ℕ => (canonValue k p : ℤ) + 1

theorem canonGrid_length (k : ℕ) :
    (canonGrid k).length = k * k * (k * k) := by
  unfold canonGrid
  rw [List.length_map, List.length_range]

theorem canon_cell {k p : ℕ} (hp : p < k * k * (k * k)) :
    cellAt (canonGrid k) p = (canonValue k p : ℤ) + 1 := by
  unfold canonGrid
  rw [cellAt_map_range, if_pos hp]

theorem canonValue_lt {k : ℕ} (hk : 0 < k) (p : ℕ) :
    canonValue k p < k * k := by
  unfold canonValue
  exact Nat.mod_lt _ (Nat.mul_pos hk hk)

theorem kk_bound {k x y : ℕ} (hx : x < k) (hy : y < k) :
    x * k + y < k * k := by
  have h1 : (x + 1) * k ≤ k * k := Nat.mul_le_mul_right k (Nat.succ_le_of_lt hx)
  have h2 : (x + 1) * k = x * k + k := by ring
  omega

/-- A unit whose `n` values are pairwise distinct and lie in `[1, n]`
is a permutation of `[1, n]`. -/
theorem unit_perm_of_inj {n : ℕ} {g : List ℤ} (I : List ℕ) (hnd : I.Nodup)
    (hIlen : I.length = n)
    (hbound : ∀ q ∈ I, 1 ≤ cellAt g q ∧ cellAt g q ≤ (n : ℤ))
    (hinj : ∀ q ∈ I, ∀ q' ∈ I, cellAt g q = cellAt g q' → q = q') :
    (I.map (cellAt g)).Perm (oneToN n) := by
  have hvnd : (I.map (cellAt g)).Nodup := List.Nodup.map_on hinj hnd
  have hsub : I.map (cellAt g) ⊆ oneToN n := by
    intro v hv
    rcases List.mem_map.mp hv with ⟨q, hqI, rfl⟩
    exact mem_oneToN.mpr (hbound q hqI)
  exact (hvnd.subperm hsub).perm_of_length_le
    (by rw [List.length_map, hIlen, oneToN_length])

theorem canonValue_row {k r a : ℕ} (hk : 0 < k) (ha : a < k * k) :
    canonValue k (r * (k * k) + a) = (r * k + r / k + a) % (k * k) := by
  have hn : 0 < k * k := Nat.mul_pos hk hk
  unfold canonValue
  rw [box_coord_div hn ha, box_coord_mod ha]

theorem canon_row_inj {k r a b : ℕ} (hk : 0 < k) (ha : a < k * k)
    (hb : b < k * k)
    (h : canonValue k (r * (k * k) + a) = canonValue k (r * (k * k) + b)) :
    a = b := by
  rw [canonValue_row hk ha, canonValue_row hk hb] at h
  have hmod : Nat.ModEq (k * k) (r * k + r / k + a) (r * k + r / k + b) := h
  have h2 : Nat.ModEq (k * k) a b :=
    Nat.ModEq.add_left_cancel' (r * k + r / k) hmod
  have h3 : a % (k * k) = b % (k * k) := h2
  rwa [Nat.mod_eq_of_lt ha, Nat.mod_eq_of_lt hb] at h3

theorem canonValue_col {k a c : ℕ} (hk : 0 < k) (hc : c < k * k) :
    canonValue k (a * (k * k) + c) = (a % k * k + a / k + c) % (k * k) := by
  have hn : 0 < k * k := Nat.mul_pos hk hk
  unfold canonValue
  rw [box_coord_div hn hc, box_coord_mod hc]
  have hd : a * k + a / k + c = k * k * (a / k) + (a % k * k + a / k + c) := by
    calc a * k + a / k + c
        = (a / k * k + a % k) * k + a / k + c := by rw [Nat.div_add_mod' a k]
      _ = k * k * (a / k) + (a % k * k + a / k + c) := by ring
  rw [hd, Nat.mul_add_mod]

theorem canon_col_inj {k a b c : ℕ} (hk : 0 < k) (ha : a < k * k)
    (hb : b < k * k) (hc : c < k * k)
    (h : canonValue k (a * (k * k) + c) = canonValue k (b * (k * k) + c)) :
    a = b := by
  rw [canonValue_col hk hc, canonValue_col hk hc] at h
  have hak : a / k < k := Nat.div_lt_of_lt_mul ha
  have hbk : b / k < k := Nat.div_lt_of_lt_mul hb
  have hax : a % k * k + a / k < k * k := kk_bound (Nat.mod_lt a hk) hak
  have hbx : b % k * k + b / k < k * k := kk_bound (Nat.mod_lt b hk) hbk
  have hmod : Nat.ModEq (k * k) (a % k * k + a / k + c)
      (b % k * k + b / k + c) := h
  have h2 : Nat.ModEq (k * k) (a % k * k + a / k) (b % k * k + b / k) :=
    Nat.ModEq.add_right_cancel' c hmod
  have h3 : (a % k * k + a / k) % (k * k) = (b % k * k + b / k) % (k * k) := h2
  rw [Nat.mod_eq_of_lt hax, Nat.mod_eq_of_lt hbx] at h3
  have hdk : a / k = b / k := by
    have h4 : (a % k * k + a / k) % k = (b % k * k + b / k) % k := by rw [h3]
    rwa [box_coord_mod hak, box_coord_mod hbk] at h4
  have hmk : a % k = b % k := by
    have h4 : (a % k * k + a / k) / k = (b % k * k + b / k) / k := by rw [h3]
    rwa [box_coord_div hk hak, box_coord_div hk hbk] at h4
  calc a = k * (a / k) + a % k := (Nat.div_add_mod a k).symm
    _ = k * (b / k) + b % k := by rw [hdk, hmk]
    _ = b := Nat.div_add_mod b k

theorem canonValue_box {k u w di dj : ℕ} (hk : 0 < k) (hdi : di < k)
    (hdj : dj < k) (hw : w < k) :
    canonValue k ((u * k + di) * (k * k) + (w * k + dj)) =
      (di * k + dj + (u + w * k)) % (k * k) := by
  have hn : 0 < k * k := Nat.mul_pos hk hk
  have hcol : w * k + dj < k * k := kk_bound hw hdj
  unfold canonValue
  rw [box_coord_div hn hcol, box_coord_mod hcol, box_coord_div hk hdi]
  have hd : (u * k + di) * k + u + (w * k + dj) =
      k * k * u + (di * k + dj + (u + w * k)) := by ring
  rw [hd, Nat.mul_add_mod]

theorem canon_box_inj {k u w di dj di' dj' : ℕ} (hk : 0 < k)
    (hdi : di < k) (hdj : dj < k) (hdi' : di' < k) (hdj' : dj' < k)
    (hw : w < k)
    (h : canonValue k ((u * k + di) * (k * k) + (w * k + dj)) =
      canonValue k ((u * k + di') * (k * k) + (w * k + dj'))) :
    di = di' ∧ dj = dj' := by
  rw [canonValue_box hk hdi hdj hw, canonValue_box hk hdi' hdj' hw] at h
  have hx : di * k + dj < k * k := kk_bound hdi hdj
  have hx' : di' * k + dj' < k * k := kk_bound hdi' hdj'
  have hmod : Nat.ModEq (k * k) (di * k + dj + (u + w * k))
      (di' * k + dj' + (u + w * k)) := h
  have h2 : Nat.ModEq (k * k) (di * k + dj) (di' * k + dj') :=
    Nat.ModEq.add_right_cancel' (u + w * k) hmod
  have h3 : (di * k + dj) % (k * k) = (di' * k + dj') % (k * k) := h2
  rw [Nat.mod_eq_of_lt hx, Nat.mod_eq_of_lt hx'] at h3
  constructor
  · have h4 : (di * k + dj) / k = (di' * k + dj') / k := by rw [h3]
    rwa [box_coord_div hk hdj, box_coord_div hk hdj'] at h4
  · have h4 : (di * k + dj) % k = (di' * k + dj') % k := by rw [h3]
    rwa [box_coord_mod hdj, box_coord_mod hdj'] at h4

theorem canonGrid_valid {k : ℕ} (hk : 0 < k) :
    validFull (k * k) (canonGrid k) := by
  have hn : 0 < k * k := Nat.mul_pos hk hk
  have hik : intSqrt (k * k) = k := intSqrt_of_sq k
  refine ⟨?_, ?_, ?_⟩
  · intro r hr
    rw [rowVals_eq_map]
    refine unit_perm_of_inj _ (rowIdx_nodup _ r) (rowIdx_length _ r) ?_ ?_
    · intro q hq
      rcases List.mem_map.mp hq with ⟨a, haR, rfl⟩
      rw [List.mem_range] at haR
      rw [canon_cell (kk_bound hr haR)]
      have hlt := canonValue_lt hk (r * (k * k) + a)
      exact ⟨by omega, by omega⟩
    · intro q hq q' hq' heq
      rcases List.mem_map.mp hq with ⟨a, haR, rfl⟩
      rcases List.mem_map.mp hq' with ⟨b, hbR, rfl⟩
      rw [List.mem_range] at haR hbR
      rw [canon_cell (kk_bound hr haR), canon_cell (kk_bound hr hbR)] at heq
      have hnat : canonValue k (r * (k * k) + a) =
          canonValue k (r * (k * k) + b) := by omega
      have := canon_row_inj hk haR hbR hnat
      omega
  · intro c hc
    rw [colVals_eq_map]
    refine unit_perm_of_inj _ (colIdx_nodup hn c) (colIdx_length _ c) ?_ ?_
    · intro q hq
      rcases List.mem_map.mp hq with ⟨a, haR, rfl⟩
      rw [List.mem_range] at haR
      rw [canon_cell (kk_bound haR hc)]
      have hlt := canonValue_lt hk (a * (k * k) + c)
      exact ⟨by omega, by omega⟩
    · intro q hq q' hq' heq
      rcases List.mem_map.mp hq with ⟨a, haR, rfl⟩
      rcases List.mem_map.mp hq' with ⟨b, hbR, rfl⟩
      rw [List.mem_range] at haR hbR
      rw [canon_cell (kk_bound haR hc), canon_cell (kk_bound hbR hc)] at heq
      have hnat : canonValue k (a * (k * k) + c) =
          canonValue k (b * (k * k) + c) := by omega
      have := canon_col_inj hk haR hbR hc hnat
      rw [this]
  · intro p hp
    rw [boxVals_eq_map]
    have hsq : intSqrt (k * k) * intSqrt (k * k) = k * k := by rw [hik]
    refine unit_perm_of_inj _ (boxIdx_nodup hsq hn hp) (boxIdx_length hsq p)
      ?_ ?_
    · intro q hq
      rw [canon_cell (boxIdx_mem_props hsq hn hp hq).1]
      have hlt := canonValue_lt hk q
      exact ⟨by omega, by omega⟩
    · intro q hq q' hq' heq
      rcases mem_boxIdx_iff.mp hq with ⟨di, hdi, dj, hdj, hqe⟩
      rcases mem_boxIdx_iff.mp hq' with ⟨di', hdi', dj', hdj', hqe'⟩
      rw [hik] at hdi hdj hdi' hdj' hqe hqe'
      have hu : p / (k * k) / k < k :=
        Nat.div_lt_of_lt_mul (Nat.div_lt_of_lt_mul hp)
      have hw : p % (k * k) / k < k :=
        Nat.div_lt_of_lt_mul (Nat.mod_lt _ hn)
      subst hqe hqe'
      rw [canon_cell (kk_bound (kk_bound hu hdi) (kk_bound hw hdj)),
        canon_cell (kk_bound (kk_bound hu hdi') (kk_bound hw hdj'))] at heq
      have hnat : canonValue k
          ((p / (k * k) / k * k + di) * (k * k) + (p % (k * k) / k * k + dj)) =
          canonValue k ((p / (k * k) / k * k + di') * (k * k) +
            (p % (k * k) / k * k + dj')) := by omega
      obtain ⟨e1, e2⟩ := canon_box_inj hk hdi hdj hdi' hdj' hw hnat
      rw [e1, e2]

theorem canonGrid_exists {k : ℕ} (hk : 0 < k) :
    ∃ g, validFull (k * k) g ∧ g.length = k * k * (k * k) :=
  ⟨canonGrid k, canonGrid_valid hk, canonGrid_length k⟩

theorem availAt_zero_grid (n : ℕ) :
    availAt n (List.replicate (n * n) 0) 0 = oneToN n := by
  unfold availAt oneToN
  rw [List.filter_eq_self]
  intro v hv
  rcases List.mem_map.mp hv with ⟨j, hj, rfl⟩
  have hnm : ((j : ℤ) + 1) ∉
      existVals n (List.replicate (n * n) (0 : ℤ)) 0 := by
    rw [existVals_decomp]
    intro hmem
    have hz : ∀ q : ℕ, cellAt (List.replicate (n * n) (0 : ℤ)) q = 0 :=
      fun q => cellAt_replicate_zero _ q
    rcases List.mem_append.mp hmem with h | h
    · rcases List.mem_append.mp h with h' | h'
      · rcases List.mem_map.mp h' with ⟨q, _, he⟩
        rw [hz q] at he
        omega
      · rcases List.mem_map.mp h' with ⟨q, _, he⟩
        rw [hz q] at he
        omega
    · rcases List.mem_map.mp h with ⟨q, _, he⟩
      rw [hz q] at he
      omega
  rw [elem_eq_false_of_not_mem hnm]
  rfl

/-- C9: generator rollback safety.  For every positive perfect-square
side `n = k²` and every shuffle oracle whose outputs are permutations
of its inputs (every seed), the first cell's candidate domain on the
all-zero starting grid is the full list `[1, n]`, and the backtracking
loop of `gen_sudoku_full` never reaches the crash state — the state
modelling a dead end with an empty frame stack, a rollback popping
past the first frame, or an out-of-range access to the frame stack or
to cell `i - 1`. -/
theorem c9_rollback_never_past_first_frame (n k : ℕ)
    (sh : ℕ → List ℤ → List ℤ) (fuel : ℕ)
    (hsh : ∀ c l, (sh c l).Perm l) (hk : 0 < k) (hnk : n = k * k) :
    availAt n (List.replicate (n * n) 0) 0 = oneToN n ∧
      genRun n sh fuel 0 (List.replicate (n * n) 0) [] ≠
        some GenOut.crash := by
  subst hnk
  refine ⟨availAt_zero_grid (k * k), ?_⟩
  have hsq : intSqrt (k * k) * intSqrt (k * k) = k * k := by
    rw [intSqrt_of_sq]
  have hn : 0 < k * k := Nat.mul_pos hk hk
  refine genRun_no_crash (k * k) sh hsh hsq hn (canonGrid_exists hk) fuel 0
    _ [] ⟨List.length_replicate _ _, by simp, ?_, trivial⟩ trivial
  intro p _
  exact cellAt_replicate_zero _ p

/-- Witness instantiating `c9_rollback_never_past_first_frame` with
`n = 4`, `k = 2`, the identity shuffle oracle and fuel 40. -/
theorem c9_rollback_never_past_first_frame_witness :
    ((∀ c l, (idOracle c l).Perm l) ∧ 0 < 2 ∧ 4 = 2 * 2) ∧
      (availAt 4 (List.replicate (4 * 4) 0) 0 = oneToN 4 ∧
        genRun 4 idOracle 40 0 (List.replicate (4 * 4) 0) [] ≠
          some GenOut.crash) :=
  ⟨⟨fun _ l => List.Perm.refl l, by decide, rfl⟩,
    c9_rollback_never_past_first_frame 4 2 idOracle 40
      (fun _ l => List.Perm.refl l) (by decide) rfl⟩
